import Mathlib

/-!
# OpenClause core — verification of the natural-language specification

A shallow embedding, in Lean 4, of the OpenClause core subsystems that the
specification describes: the canonical JSON codec, the per-tenant SHA-256
hash chain and its verifier, the evidence store's idempotency lookup and the
parent↔execution link, the approval store (grant issuance and scope-matched
consumption with glob resource patterns), the approver authorizer, request
validation, and the notification dispatcher's retry backoff.

Pure Go functions become Lean functions; stateful database code becomes
explicit state passing over list-of-rows states; machine integers are `Nat`
with explicit `% 2^w` where overflow matters; fallible code returns
`Option`/`Except`.  Each claim of the specification is settled by one theorem
below the definitions.
-/

namespace OpenClause

/-! ## SHA-256 over byte lists

Bytes are `Nat` values < 256, words `Nat` values < 2^32.  This embeds the
`crypto/sha256` library function the evidence hash chain calls. -/

def mask32 (n : Nat) : Nat := n % 4294967296

def add32 (a b : Nat) : Nat := mask32 (a + b)

def rotr32 (k x : Nat) : Nat := mask32 ((x >>> k) ||| (x <<< (32 - k)))

def shr32 (k x : Nat) : Nat := x >>> k

def not32 (x : Nat) : Nat := Nat.xor x 4294967295

def bigSigma0 (x : Nat) : Nat := Nat.xor (rotr32 2 x) (Nat.xor (rotr32 13 x) (rotr32 22 x))

def bigSigma1 (x : Nat) : Nat := Nat.xor (rotr32 6 x) (Nat.xor (rotr32 11 x) (rotr32 25 x))

def smallSigma0 (x : Nat) : Nat := Nat.xor (rotr32 7 x) (Nat.xor (rotr32 18 x) (shr32 3 x))

def smallSigma1 (x : Nat) : Nat := Nat.xor (rotr32 17 x) (Nat.xor (rotr32 19 x) (shr32 10 x))

def chFn (x y z : Nat) : Nat := Nat.xor (Nat.land x y) (Nat.land (not32 x) z)

def majFn (x y z : Nat) : Nat := Nat.xor (Nat.land x y) (Nat.xor (Nat.land x z) (Nat.land y z))

def sha256K : List Nat :=
  [1116352408, 1899447441, 3049323471, 3921009573, 961987163, 1508970993,
   2453635748, 2870763221, 3624381080, 310598401, 607225278, 1426881987,
   1925078388, 2162078206, 2614888103, 3248222580, 3835390401, 4022224774,
   264347078, 604807628, 770255983, 1249150122, 1555081692, 1996064986,
   2554220882, 2821834349, 2952996808, 3210313671, 3336571891, 3584528711,
   113926993, 338241895, 666307205, 773529912, 1294757372, 1396182291,
   1695183700, 1986661051, 2177026350, 2456956037, 2730485921, 2820302411,
   3259730800, 3345764771, 3516065817, 3600352804, 4094571909, 275423344,
   430227734, 506948616, 659060556, 883997877, 958139571, 1322822218,
   1537002063, 1747873779, 1955562222, 2024104815, 2227730452, 2361852424,
   2428436474, 2756734187, 3204031479, 3329325298]

def sha256H0 : List Nat :=
  [1779033703, 3144134277, 1013904242, 2773480762,
   1359893119, 2600822924, 528734635, 1541459225]

/-- 8-byte big-endian encoding of `n`; used both for SHA-256 length padding
and for the hash chain's field length prefixes (`writeField`). -/
def be64 (n : Nat) : List Nat :=
  [(n >>> 56) % 256, (n >>> 48) % 256, (n >>> 40) % 256, (n >>> 32) % 256,
   (n >>> 24) % 256, (n >>> 16) % 256, (n >>> 8) % 256, n % 256]

def be32 (n : Nat) : List Nat :=
  [(n >>> 24) % 256, (n >>> 16) % 256, (n >>> 8) % 256, n % 256]

/-- SHA-256 message padding: append `0x80`, zero bytes to 56 mod 64, then the
64-bit big-endian bit length. -/
def sha256Pad (msg : List Nat) : List Nat :=
  msg ++ (0x80 :: List.replicate ((119 - msg.length % 64) % 64) 0) ++ be64 (8 * msg.length)

/-- Group bytes into big-endian 32-bit words. -/
def bytesToWords : List Nat → List Nat
  | a :: b :: c :: d :: rest => (a <<< 24 + b <<< 16 + c <<< 8 + d) :: bytesToWords rest
  | _ => []

/-- Extend a 16-word block to the 64-word message schedule. -/
def sha256Schedule (block : List Nat) : List Nat :=
  (List.range 48).foldl
    (fun w i =>
      let t := i + 16
      w ++ [mask32 (smallSigma1 (w.getD (t - 2) 0) + w.getD (t - 7) 0 +
                    smallSigma0 (w.getD (t - 15) 0) + w.getD (t - 16) 0)])
    block

/-- One round of the SHA-256 compression function. -/
def sha256Round : (Nat × Nat × Nat × Nat × Nat × Nat × Nat × Nat) → Nat × Nat →
    (Nat × Nat × Nat × Nat × Nat × Nat × Nat × Nat)
  | (a, b, c, d, e, f, g, h), (k, w) =>
    let t1 := mask32 (h + bigSigma1 e + chFn e f g + k + w)
    let t2 := mask32 (bigSigma0 a + majFn a b c)
    (add32 t1 t2, a, b, c, mask32 (d + t1), e, f, g)

/-- Process one 16-word block, updating the 8-word state. -/
def sha256Block (state : List Nat) (block : List Nat) : List Nat :=
  let w := sha256Schedule block
  let init : Nat × Nat × Nat × Nat × Nat × Nat × Nat × Nat :=
    (state.getD 0 0, state.getD 1 0, state.getD 2 0, state.getD 3 0,
     state.getD 4 0, state.getD 5 0, state.getD 6 0, state.getD 7 0)
  let (a, b, c, d, e, f, g, h) := (sha256K.zip w).foldl sha256Round init
  [add32 (state.getD 0 0) a, add32 (state.getD 1 0) b, add32 (state.getD 2 0) c,
   add32 (state.getD 3 0) d, add32 (state.getD 4 0) e, add32 (state.getD 5 0) f,
   add32 (state.getD 6 0) g, add32 (state.getD 7 0) h]

/-- Fold the compression function over consecutive 16-word blocks; the last
argument counts the blocks (structural recursion so that the kernel can
evaluate digests inside `decide`). -/
def sha256Blocks (state : List Nat) (ws : List Nat) : Nat → List Nat
  | 0 => state
  | n + 1 => sha256Blocks (sha256Block state (ws.take 16)) (ws.drop 16) n

/-- SHA-256 digest of a byte list, as 32 bytes. -/
def sha256 (msg : List Nat) : List Nat :=
  let ws := bytesToWords (sha256Pad msg)
  (sha256Blocks sha256H0 ws (ws.length / 16)).flatMap be32

def hexDigit (n : Nat) : Char :=
  if n < 10 then Char.ofNat (48 + n) else Char.ofNat (87 + n)

/-- Lowercase hex encoding of a byte list (`encoding/hex`). -/
def hexEncode (bs : List Nat) : String :=
  String.mk (bs.flatMap fun b => [hexDigit (b / 16), hexDigit (b % 16)])

/-- Bytes of a string (ASCII view, matching Go's byte conversion on the
ASCII hex strings and tags the chain feeds back into the hash). -/
def strBytes (s : String) : List Nat := s.data.map Char.toNat

/-! ## Hash chain (`pkg/evidence/hashchain.go`) -/

/-- `writeField`: 8-byte big-endian length prefix followed by the data. -/
def writeField (data : List Nat) : List Nat := be64 data.length ++ data

def chainTag : List Nat := strBytes "openclause:chain:v1"

/-- `ChainHash`: SHA-256 over the length-prefixed concatenation of the domain
tag, the previous hash, the canonical payload, and — only when a result
exists — the canonical result; hex-encoded. -/
def ChainHash (prevHash : String) (canonPayload : List Nat)
    (canonResult : Option (List Nat)) : String :=
  hexEncode (sha256 (writeField chainTag ++ writeField (strBytes prevHash) ++
    writeField canonPayload ++
    (match canonResult with
     | none => []
     | some r => writeField r)))

/-- `ChainEvent`: the minimal shape needed for verification. -/
structure ChainEvent where
  eventID : String
  prevHash : String
  hash : String
  canonPayload : List Nat
  canonResult : Option (List Nat)
deriving DecidableEq, Inhabited, Repr

/-- The two per-event checks `VerifyChainFrom` performs against the running
previous hash: the stored `prev_hash` links correctly and the stored `hash`
recomputes. -/
def eventOk (prev : String) (ev : ChainEvent) : Prop :=
  ev.prevHash = prev ∧ ev.hash = ChainHash prev ev.canonPayload ev.canonResult

instance (prev : String) (ev : ChainEvent) : Decidable (eventOk prev ev) := by
  unfold eventOk; infer_instance

/-- `VerifyChainFrom`: walk the events from a known previous hash; return
`none` on success and `some i` when the chain is broken at index `i`. -/
def VerifyChainFrom (prev : String) : List ChainEvent → Option Nat
  | [] => none
  | ev :: rest =>
    if eventOk prev ev then
      match VerifyChainFrom ev.hash rest with
      | none => none
      | some i => some (i + 1)
    else some 0

/-- `VerifyChain` starts from the empty previous hash. -/
def VerifyChain (events : List ChainEvent) : Option Nat := VerifyChainFrom "" events

/-- The previous hash the chain demands at index `k`: the starting hash at
`k = 0`, else the stored hash of the event before. -/
def prevAt (start : String) (events : List ChainEvent) : Nat → String
  | 0 => start
  | k + 1 => (events.getD k default).hash

/-- The specification's per-index chain condition. -/
def chainValid (start : String) (events : List ChainEvent) : Prop :=
  ∀ k, k < events.length → eventOk (prevAt start events k) (events.getD k default)

instance (start : String) (events : List ChainEvent) :
    Decidable (chainValid start events) := by
  unfold chainValid; infer_instance

def witChainEv0 : ChainEvent :=
  { eventID := "e0", prevHash := "", hash := ChainHash "" [123] none,
    canonPayload := [123], canonResult := none }

def witChainEv1 : ChainEvent :=
  { eventID := "e1", prevHash := ChainHash "" [123] none,
    hash := ChainHash (ChainHash "" [123] none) [11, 22] (some [7]),
    canonPayload := [11, 22], canonResult := some [7] }

/-- A mutated copy of the second event: one payload byte flipped, stored
hash unchanged. -/
def witChainMutant : ChainEvent :=
  { witChainEv1 with canonPayload := [11, 23] }

/-! ## Canonical JSON codec (`pkg/evidence/canonical.go`)

`CanonicalJSON` in Go marshals a value, re-decodes it generically with
`UseNumber` (objects become string-keyed maps, numbers keep their decimal
token — never a float), recursively sorts object keys, and re-marshals.
`Jval` is the generic decoded tree; `sortKeys` is the recursive key sort;
`serialize` is the deterministic re-marshal (`orderedMap.MarshalJSON` plus
`encoding/json` leaf encoding). -/

inductive Jval where
  | null
  | bool (b : Bool)
  | num (tok : String)
  | str (s : String)
  | arr (elems : List Jval)
  | obj (fields : List (String × Jval))
deriving Repr

def keyList (fs : List (String × Jval)) : List String := fs.map Prod.fst

/-! `JEquiv`: two decoded trees denote the same logical JSON value — equal
leaves, pointwise-equivalent arrays, and objects with the same keys (in any
order) mapping to equivalent values. -/

mutual

def JEquiv : Jval → Jval → Prop
  | .arr xs, .arr ys => JListEquiv xs ys
  | .obj fs, .obj gs => (keyList fs).Perm (keyList gs) ∧ JFieldsCompat fs gs
  | a, b => a = b

def JListEquiv : List Jval → List Jval → Prop
  | [], [] => True
  | x :: xs, y :: ys => JEquiv x y ∧ JListEquiv xs ys
  | _, _ => False

def JFieldsCompat : List (String × Jval) → List (String × Jval) → Prop
  | [], _ => True
  | (k, v) :: fs, gs => (∀ w, (k, w) ∈ gs → JEquiv v w) ∧ JFieldsCompat fs gs

end

/-! `JWF`: well-formedness of a decoded tree — every object has distinct
keys, automatic for trees decoded from Go maps. -/

mutual

def JWF : Jval → Prop
  | .arr xs => JListWF xs
  | .obj fs => (keyList fs).Nodup ∧ JFieldsWF fs
  | _ => True

def JListWF : List Jval → Prop
  | [] => True
  | x :: xs => JWF x ∧ JListWF xs

def JFieldsWF : List (String × Jval) → Prop
  | [] => True
  | (_, v) :: fs => JWF v ∧ JFieldsWF fs

end

/-- Ordering of object fields by key (`sort.Strings` on the key slice). -/
def fieldLe (p q : String × Jval) : Prop := p.1 ≤ q.1

def fieldLt (p q : String × Jval) : Prop := p.1 < q.1

instance : DecidableRel fieldLe := fun p q => inferInstanceAs (Decidable (p.1 ≤ q.1))

instance : IsTotal (String × Jval) fieldLe := ⟨fun p q => le_total p.1 q.1⟩

instance : IsTrans (String × Jval) fieldLe := ⟨fun _ _ _ h1 h2 => le_trans h1 h2⟩

instance : IsAntisymm (String × Jval) fieldLt :=
  ⟨fun p q h1 h2 => absurd (show p.1 < q.1 from h1) (lt_asymm (show q.1 < p.1 from h2))⟩

/-! `sortKeys`: recursively sort object keys for deterministic
serialization. -/

mutual

def sortKeys : Jval → Jval
  | .null => .null
  | .bool b => .bool b
  | .num t => .num t
  | .str s => .str s
  | .arr xs => .arr (sortKeysList xs)
  | .obj fs => .obj (List.insertionSort fieldLe (sortKeysFields fs))

def sortKeysList : List Jval → List Jval
  | [] => []
  | x :: xs => sortKeys x :: sortKeysList xs

def sortKeysFields : List (String × Jval) → List (String × Jval)
  | [] => []
  | (k, v) :: fs => (k, sortKeys v) :: sortKeysFields fs

end

/-- JSON string escaping as `encoding/json` performs it (quotes, backslash,
control characters, and HTML-significant characters). -/
def escapeChar (c : Char) : List Char :=
  if c = '"' then ['\\', '"']
  else if c = '\\' then ['\\', '\\']
  else if c = '\n' then ['\\', 'n']
  else if c = '\r' then ['\\', 'r']
  else if c = '\t' then ['\\', 't']
  else if c = '<' ∨ c = '>' ∨ c = '&' ∨ c.toNat < 32 then
    ['\\', 'u', '0', '0', hexDigit (c.toNat / 16), hexDigit (c.toNat % 16)]
  else [c]

def quoteStr (s : String) : String :=
  "\"" ++ String.mk (s.data.flatMap escapeChar) ++ "\""

/-! `serialize`: deterministic re-marshal of the sorted tree —
`orderedMap.MarshalJSON` for objects, `encoding/json` for everything else;
no extraneous whitespace. -/

mutual

def serialize : Jval → String
  | .null => "null"
  | .bool true => "true"
  | .bool false => "false"
  | .num t => t
  | .str s => quoteStr s
  | .arr xs => "[" ++ serializeList xs ++ "]"
  | .obj fs => "\x7b" ++ serializeFields fs ++ "\x7d"

def serializeList : List Jval → String
  | [] => ""
  | [x] => serialize x
  | x :: xs => serialize x ++ "," ++ serializeList xs

def serializeFields : List (String × Jval) → String
  | [] => ""
  | [(k, v)] => quoteStr k ++ ":" ++ serialize v
  | (k, v) :: fs => quoteStr k ++ ":" ++ serialize v ++ "," ++ serializeFields fs

end

/-- `CanonicalJSON`: stable byte representation — recursively sorted keys,
then the deterministic marshal. -/
def CanonicalJSON (v : Jval) : String := serialize (sortKeys v)

def witJa : Jval :=
  .obj [("z", .num "1"), ("a", .obj [("y", .str "s"), ("x", .null)])]

def witJb : Jval :=
  .obj [("a", .obj [("x", .null), ("y", .str "s")]), ("z", .num "1")]

/-! ## Approver authorizer (`pkg/approvals/authorizer.go`)

Per-tenant allowlists parsed from comma-separated `tenant:v1|v2` entries.
Strings are handled as character lists so that the Go `strings` helpers
(`Split`, `SplitN`, `TrimSpace`, `ToLower` — ASCII view) are structurally
computable; the tenant maps are association lists with one binding per
tenant. -/

def isSpaceChar (c : Char) : Bool := c = ' ' ∨ c = '\t' ∨ c = '\n' ∨ c = '\r'

/-- `strings.TrimSpace` (ASCII whitespace). -/
def trimChars (cs : List Char) : List Char :=
  ((cs.dropWhile isSpaceChar).reverse.dropWhile isSpaceChar).reverse

/-- `strings.Split` on a one-character separator. -/
def splitOnChar (sep : Char) : List Char → List (List Char)
  | [] => [[]]
  | c :: rest =>
    if c = sep then [] :: splitOnChar sep rest
    else
      match splitOnChar sep rest with
      | [] => [[c]]
      | h :: t => (c :: h) :: t

/-- `strings.SplitN(s, sep, 2)`: split at the first separator, or `none` when
the separator does not occur. -/
def splitFirst (sep : Char) : List Char → Option (List Char × List Char)
  | [] => none
  | c :: rest =>
    if c = sep then some ([], rest)
    else (splitFirst sep rest).map (fun p => (c :: p.1, p.2))

/-- `strings.ToLower` (ASCII). -/
def lowerChars (cs : List Char) : List Char :=
  cs.map fun c => if 'A' ≤ c ∧ c ≤ 'Z' then Char.ofNat (c.toNat + 32) else c

structure ApproverAuthorizer where
  emailByTenant : List (List Char × List (List Char))
  slackByTenant : List (List Char × List (List Char))

/-- Add values to a tenant's set, creating the tenant entry if missing
(mirrors `out[tenantID]` auto-creation plus member insertion). -/
def tenantListAdd (m : List (List Char × List (List Char))) (t : List Char)
    (vs : List (List Char)) : List (List Char × List (List Char)) :=
  match m with
  | [] => [(t, vs)]
  | (t0, vs0) :: rest =>
    if t0 = t then (t0, vs0 ++ vs) :: rest else (t0, vs0) :: tenantListAdd rest t vs

/-- `parseTenantList`: split entries on commas, each entry `tenant:v1|v2|…`;
entries without a colon, empty tenants and empty values are skipped; values
are trimmed and lowercased. -/
def parseTenantList (raw : String) : List (List Char × List (List Char)) :=
  (splitOnChar ',' raw.data).foldl
    (fun out entry =>
      let entry := trimChars entry
      if entry = [] then out
      else
        match splitFirst ':' entry with
        | none => out
        | some (tpart, vpart) =>
          let tenantID := trimChars tpart
          if tenantID = [] then out
          else
            let values := (splitOnChar '|' vpart).filterMap
              (fun v =>
                let v := trimChars v
                if v = [] then none else some (lowerChars v))
            tenantListAdd out tenantID values)
    []

def NewApproverAuthorizer (emailAllowlist slackAllowlist : String) : ApproverAuthorizer :=
  { emailByTenant := parseTenantList emailAllowlist,
    slackByTenant := parseTenantList slackAllowlist }

/-- `AllowEmail`: empty identity is denied; a tenant with no allowlist (or an
empty one) is allowed; otherwise membership of the trimmed, lowercased
identity is required. -/
def AllowEmail (a : ApproverAuthorizer) (tenantID email : String) : Bool :=
  if email = "" then false
  else
    match a.emailByTenant.lookup tenantID.data with
    | none => true
    | some allowed =>
      if allowed.length = 0 then true
      else allowed.contains (lowerChars (trimChars email.data))

/-- `AllowSlack`: same policy over the messenger-user allowlist. -/
def AllowSlack (a : ApproverAuthorizer) (tenantID userID : String) : Bool :=
  if userID = "" then false
  else
    match a.slackByTenant.lookup tenantID.data with
    | none => true
    | some allowed =>
      if allowed.length = 0 then true
      else allowed.contains (lowerChars (trimChars userID.data))

/-! ## Notification dispatcher backoff (`pkg/approvals/notifier.go`) -/

def maxDispatchBackoffSec : Nat := 300

def maxNotificationAttempts : Int := 10

/-- `backoffForAttempt`, in seconds: 1s for attempts ≤ 0, else
`1s << min(attempt, 8)` capped at 5 minutes. -/
def backoffForAttempt (attempt : Int) : Nat :=
  if attempt ≤ 0 then 1
  else
    let d := 1 <<< (min attempt.toNat 8)
    if d > maxDispatchBackoffSec then maxDispatchBackoffSec else d

/-- The dispatcher's disposition of a notification row. -/
inductive Disposition where
  | sent
  | retryAfterSec (delay : Nat)
  | failed
deriving DecidableEq, Repr

/-- `DispatchOnce`, failure path: attempts ≥ 10 marks the row terminally
failed, otherwise a retry is scheduled `backoffForAttempt attempts` from
now. -/
def dispatchOnFailure (attempts : Int) : Disposition :=
  if attempts ≥ maxNotificationAttempts then .failed
  else .retryAfterSec (backoffForAttempt attempts)

/-! ## Tool-call request validation (`pkg/types/toolcall.go`) -/

def MaxParamsBytes : Nat := 65536

def MaxResourceBytes : Nat := 2048

def MaxIdempotencyKeyBytes : Nat := 256

def MaxLabelsCount : Nat := 50

def MaxRiskScore : Int := 10

def CurrentSchemaVer : String := "1.0"

structure ToolCallRequest where
  tenantID : String
  agentID : String
  tool : String
  action : String
  params : List Nat
  resource : String
  riskScore : Int
  labels : List (String × String)
  idempotencyKey : String
  requestedAt : Option Nat
  schemaVersion : String
deriving DecidableEq, Repr

/-- `Normalize`: lowercase and trim `tool`/`action` (ASCII view). -/
def normName (s : String) : String := String.mk (lowerChars (trimChars s.data))

def nameHeadChar (c : Char) : Bool :=
  ('a' ≤ c && c ≤ 'z') || ('0' ≤ c && c ≤ '9')

def nameTailChar (c : Char) : Bool :=
  nameHeadChar c || c = '.' || c = '_' || c = '-'

/-- The pattern `^[a-z0-9][a-z0-9._-]\x7b0,63\x7d$`: one head character and at
most 63 tail characters. -/
def validName (s : String) : Bool :=
  match s.data with
  | [] => false
  | c :: rest => nameHeadChar c && rest.length ≤ 63 && rest.all nameTailChar

instance {α β : Type} [DecidableEq α] [DecidableEq β] : DecidableEq (Except α β) := fun a b =>
  match a, b with
  | .ok x, .ok y => if h : x = y then isTrue (by rw [h]) else isFalse (by simpa using h)
  | .error x, .error y => if h : x = y then isTrue (by rw [h]) else isFalse (by simpa using h)
  | .ok _, .error _ => isFalse (by simp)
  | .error _, .ok _ => isFalse (by simp)

/-- Normalization pass of the validator: lowercase and trim tool and action. -/
def normalizeReq (r : ToolCallRequest) : ToolCallRequest :=
  { r with tool := normName r.tool, action := normName r.action }

/-- The check chain of the validator, applied to an already-normalized
request. -/
def validateNormalized (now : Nat) (rn : ToolCallRequest) :
    Except String ToolCallRequest :=
  if rn.tenantID = "" then .error "tenant_id"
  else if rn.agentID = "" then .error "agent_id"
  else if rn.tool = "" then .error "tool"
  else if rn.action = "" then .error "action"
  else if validName rn.tool = false then .error "tool"
  else if validName rn.action = false then .error "action"
  else if rn.idempotencyKey = "" then .error "idempotency_key"
  else if rn.idempotencyKey.utf8ByteSize > MaxIdempotencyKeyBytes then .error "idempotency_key"
  else if rn.riskScore < 0 ∨ rn.riskScore > MaxRiskScore then .error "risk_score"
  else if rn.params.length > MaxParamsBytes then .error "params"
  else if rn.resource.utf8ByteSize > MaxResourceBytes then .error "resource"
  else if rn.labels.length > MaxLabelsCount then .error "labels"
  else if rn.schemaVersion = "" then
    .ok { rn with schemaVersion := CurrentSchemaVer,
                  requestedAt := some (rn.requestedAt.getD now) }
  else if rn.schemaVersion ≠ CurrentSchemaVer then .error "schema_version"
  else .ok { rn with requestedAt := some (rn.requestedAt.getD now) }

/-- Modelled from the spec: `NormalizeAndValidate` — the validator the
gateway's `HandleToolCall` calls (`req.NormalizeAndValidate()`); its
definition is missing from the source tree, which holds only the pre-rename
`Validate` of `pkg/types/toolcall.go` without the name-pattern check (the fix
tracker records the rename and the added pattern). It normalizes
`tool`/`action` (lowercase, trim), requires them to match
`^[a-z0-9][a-z0-9._-]\x7b0,63\x7d$`, and enforces the required-field, bound,
and schema-version checks of `Validate`, defaulting `schema_version` and
`requested_at`. -/
def NormalizeAndValidate (now : Nat) (r : ToolCallRequest) :
    Except String ToolCallRequest :=
  validateNormalized now (normalizeReq r)

def witGoodRequest : ToolCallRequest :=
  { tenantID := "tenant1", agentID := "agent-1", tool := "  SLACK  ",
    action := " MSG.POST ", params := [], resource := "", riskScore := 3,
    labels := [], idempotencyKey := "demo-001", requestedAt := some 1700000000,
    schemaVersion := "1.0" }

def witBadRequest : ToolCallRequest :=
  { witGoodRequest with tool := "Bad Tool!" }

/-! ## Evidence store idempotency lookup (`pkg/evidence/store.go`) -/

structure ExecutionResult where
  status : String
  outputJSON : List Nat
  errorMsg : String
  durationMS : Int
deriving DecidableEq, Repr

/-- One `tool_events` row, with its policy reason and any joined
`tool_results` row. -/
structure ToolEventRow where
  eventID : String
  tenantID : String
  decision : String
  reason : String
  idempotencyKey : String
  result : Option ExecutionResult
deriving DecidableEq, Repr

structure ToolCallResponse where
  eventID : String
  decision : String
  reason : String
  result : Option ExecutionResult
deriving DecidableEq, Repr

/-- `CheckIdempotency`: select `event_id, decision` of the first row matching
`(tenant_id, idempotency_key)` (`LIMIT 1`); on a hit build the replay response
with the fixed reason and no result. -/
def CheckIdempotency (events : List ToolEventRow) (tenantID idempotencyKey : String) :
    Option ToolCallResponse :=
  match events.find? (fun e => e.tenantID == tenantID && e.idempotencyKey == idempotencyKey) with
  | none => none
  | some e => some { eventID := e.eventID, decision := e.decision,
                     reason := "idempotent replay", result := none }

def witPriorEvent : ToolEventRow :=
  { eventID := "e-1", tenantID := "tenant1", decision := "allow",
    reason := "risk below threshold", idempotencyKey := "demo-001",
    result := some { status := "success", outputJSON := [110, 117, 108, 108],
                     errorMsg := "", durationMS := 42 } }

/-- The response the gateway originally returned for `witPriorEvent`. -/
def witPriorResponse : ToolCallResponse :=
  { eventID := "e-1", decision := "allow", reason := "risk below threshold",
    result := witPriorEvent.result }

/-! ## Approval store (`pkg/approvals/store.go`) -/

structure ApprovalRequest where
  id : String
  eventID : String
  tenantID : String
  agentID : String
  tool : String
  action : String
  resource : String
  riskScore : Int
  reason : String
  denyReason : String
  status : String
  createdAt : Int
  expiresAt : Int
deriving DecidableEq, Repr

structure ApprovalGrant where
  id : String
  requestID : String
  tenantID : String
  approver : String
  scopeTool : String
  scopeAction : String
  scopeResourcePattern : String
  scopeTenantID : String
  scopeAgentID : String
  maxUses : Int
  usesLeft : Int
  expiresAt : Int
  grantedAt : Int
deriving DecidableEq, Repr

structure GrantInput where
  approver : String
  maxUses : Int
  expiresInSec : Int
  resourcePattern : String
deriving DecidableEq, Repr

/-- `GrantRequest`: inside one transaction, `UPDATE approval_requests SET
status = approved WHERE id = ? AND status = pending` (no expiry predicate),
error when no row was affected; then read the request's scope fields and
insert a grant with `uses_left := max_uses ≥ 1`, expiry `now + ExpiresInSec`
(default 1 h) and `resource_pattern := input pattern ?? request resource`.
State is the pair of tables; the successful result also carries the grant. -/
def GrantRequest (reqs : List ApprovalRequest) (grants : List ApprovalGrant)
    (requestID : String) (input : GrantInput) (now : Int) (newGrantID : String) :
    Except String (List ApprovalRequest × List ApprovalGrant × ApprovalGrant) :=
  if input.approver = "" then .error "approver is required"
  else
    match reqs.find? (fun r => r.id == requestID && r.status == "pending") with
    | none => .error "not found or not pending"
    | some r =>
      let reqs2 := reqs.map fun q =>
        if q.id == requestID && q.status == "pending" then { q with status := "approved" } else q
      let maxUses := if input.maxUses ≤ 0 then 1 else input.maxUses
      let expiry := if input.expiresInSec > 0 then now + input.expiresInSec else now + 3600
      let pattern := if input.resourcePattern = "" then r.resource else input.resourcePattern
      let grant : ApprovalGrant :=
        { id := newGrantID, requestID := requestID, tenantID := r.tenantID,
          approver := input.approver,
          scopeTool := r.tool, scopeAction := r.action, scopeResourcePattern := pattern,
          scopeTenantID := r.tenantID, scopeAgentID := r.agentID,
          maxUses := maxUses, usesLeft := maxUses, expiresAt := expiry, grantedAt := now }
      .ok (reqs2, grants ++ [grant], grant)

def witExpiredReq : ApprovalRequest :=
  { id := "r1", eventID := "e1", tenantID := "tenant1", agentID := "agent-1",
    tool := "slack", action := "msg.post", resource := "channel-1", riskScore := 8,
    reason := "needs approval", denyReason := "", status := "pending",
    createdAt := 0, expiresAt := 100 }

def witGrantInput : GrantInput :=
  { approver := "alice@example.com", maxUses := 1, expiresInSec := 3600,
    resourcePattern := "" }

/-! ## Resource patterns: `path.Match` (Go standard library) and
`matchResource` (`pkg/approvals/store.go`)

The glob matcher is embedded with explicit fuel; every loop of the Go code
consumes at least one character of the quantity its fuel is derived from, so
the fuel chosen at each call site is sufficient and the zero-fuel branches
are unreachable. `Except.error` is `ErrBadPattern`. -/

/-- Leading stars of a pattern chunk (`scanChunk`, first loop). -/
def stripStars : List Char → Bool × List Char
  | '*' :: rest => (true, (stripStars rest).2)
  | p => (false, p)

/-- The scan loop of `scanChunk`: cut the pattern at the next top-level star,
skipping escaped characters and bracket classes. -/
def scanChunkLoop (inrange : Bool) : List Char → List Char × List Char
  | [] => ([], [])
  | c :: rest =>
    if c = '\\' then
      match rest with
      | [] => ([c], [])
      | d :: rest2 =>
        let p := scanChunkLoop inrange rest2
        (c :: d :: p.1, p.2)
    else if c = '[' then
      let p := scanChunkLoop true rest
      (c :: p.1, p.2)
    else if c = ']' then
      let p := scanChunkLoop false rest
      (c :: p.1, p.2)
    else if c = '*' ∧ ¬ inrange then ([], c :: rest)
    else
      let p := scanChunkLoop inrange rest
      (c :: p.1, p.2)

/-- `scanChunk`: the next non-star segment of the pattern, with a flag for
preceding stars. -/
def scanChunk (pattern : List Char) : Bool × List Char × List Char :=
  let sp := stripStars pattern
  (sp.1, scanChunkLoop false sp.2)

/-- `getEsc`: one possibly-escaped character of a bracket class; bad pattern
when the class is empty, starts with `-` or `]`, ends at a backslash, or
ends right after the character (no room for the closing bracket). -/
def getEsc : List Char → Except Unit (Char × List Char)
  | [] => .error ()
  | c :: rest =>
    if c = '-' ∨ c = ']' then .error ()
    else if c = '\\' then
      match rest with
      | [] => .error ()
      | d :: rest2 => if rest2 = [] then .error () else .ok (d, rest2)
    else if rest = [] then .error () else .ok (c, rest)

/-- The range loop of `matchChunk`'s bracket-class case: parse `lo`(-`hi`)
ranges until the closing bracket, recording whether `r` fell in any range. -/
def matchRanges (r : Char) : Nat → List Char → Bool → Nat → Except Unit (Bool × List Char)
  | 0, _, _, _ => .error ()
  | fuel + 1, chunk, mtch, nrange =>
    match chunk with
    | ']' :: rest =>
      if nrange > 0 then .ok (mtch, rest) else .error ()
    | _ =>
      match getEsc chunk with
      | .error _ => .error ()
      | .ok (lo, chunk1) =>
        match chunk1 with
        | '-' :: chunk1t =>
          match getEsc chunk1t with
          | .error _ => .error ()
          | .ok (hi, chunk2) =>
            matchRanges r fuel chunk2 (mtch || (decide (lo ≤ r) && decide (r ≤ hi))) (nrange + 1)
        | _ =>
          matchRanges r fuel chunk1 (mtch || (decide (lo ≤ r) && decide (r ≤ lo))) (nrange + 1)

/-- `matchChunk`: match a star-free chunk against the beginning of `s`;
`some rest` on success, `none` on mismatch (parsing continues to validate
the chunk), `Except.error` on a bad pattern. -/
def matchChunk : Nat → Bool → List Char → List Char → Except Unit (Option (List Char))
  | 0, _, _, _ => .error ()
  | fuel + 1, failed0, chunk, s =>
    match chunk with
    | [] => if failed0 then .ok none else .ok (some s)
    | c :: chunkRest =>
      let failed := failed0 || decide (s = [])
      if c = '[' then
        let r := if failed then ' ' else s.headD ' '
        let s2 := if failed then s else s.tail
        let neg : Bool × List Char :=
          match chunkRest with
          | '^' :: t => (true, t)
          | _ => (false, chunkRest)
        match matchRanges r fuel neg.2 false 0 with
        | .error _ => .error ()
        | .ok (mtch, chunk3) =>
          matchChunk fuel (if mtch = neg.1 then true else failed) chunk3 s2
      else if c = '?' then
        if failed then matchChunk fuel failed chunkRest s
        else matchChunk fuel (decide (s.headD ' ' = '/')) chunkRest s.tail
      else if c = '\\' then
        match chunkRest with
        | [] => .error ()
        | d :: chunkRest2 =>
          if failed then matchChunk fuel failed chunkRest2 s
          else matchChunk fuel (decide (d ≠ s.headD ' ')) chunkRest2 s.tail
      else
        if failed then matchChunk fuel failed chunkRest s
        else matchChunk fuel (decide (c ≠ s.headD ' ')) chunkRest s.tail

/-- The trailing syntactic-validity sweep of `Match`: before returning a
non-error false, every remaining chunk must parse. -/
def checkRestValid : Nat → List Char → Except Unit Unit
  | 0, _ => .error ()
  | _, [] => .ok ()
  | fuel + 1, pattern =>
    let sc := scanChunk pattern
    match matchChunk (sc.2.1.length + 1) false sc.2.1 [] with
    | .error _ => .error ()
    | .ok _ => checkRestValid fuel sc.2.2

/-- The star-backtracking loop of `Match`: skip one non-slash character of
the name at a time and retry the chunk; `some t` resumes the outer loop with
the rest of the name. -/
def starLoop (chunk rest : List Char) : Nat → List Char → Except Unit (Option (List Char))
  | 0, _ => .error ()
  | fuel + 1, u =>
    match u with
    | [] => .ok none
    | c :: ut =>
      if c = '/' then .ok none
      else
        match matchChunk (chunk.length + 1) false chunk ut with
        | .error _ => .error ()
        | .ok (some t) =>
          if rest = [] ∧ t ≠ [] then starLoop chunk rest fuel ut
          else .ok (some t)
        | .ok none => starLoop chunk rest fuel ut

/-- The chunk loop of `Match`. -/
def matchGo : Nat → List Char → List Char → Except Unit Bool
  | 0, _, _ => .error ()
  | fuel + 1, pattern, name =>
    match pattern with
    | [] => .ok (decide (name = []))
    | _ :: _ =>
      let sc := scanChunk pattern
      let star := sc.1
      let chunk := sc.2.1
      let rest := sc.2.2
      if star ∧ chunk = [] then .ok (!(name.contains '/'))
      else
        let noMatch : Except Unit Bool :=
          match checkRestValid (rest.length + 1) rest with
          | .error _ => .error ()
          | .ok _ => .ok false
        let viaStar : Except Unit Bool :=
          if star then
            match starLoop chunk rest (name.length + 1) name with
            | .error _ => .error ()
            | .ok (some t2) => matchGo fuel rest t2
            | .ok none => noMatch
          else noMatch
        match matchChunk (chunk.length + 1) false chunk name with
        | .error _ => .error ()
        | .ok (some t) =>
          if t = [] ∨ rest ≠ [] then matchGo fuel rest t else viaStar
        | .ok none => viaStar

/-- `path.Match`: whether `name` matches the shell pattern. -/
def pathMatch (pattern name : String) : Except Unit Bool :=
  matchGo (pattern.data.length + 1) pattern.data name.data

/-- `matchResource`: empty and `"*"` patterns match everything; otherwise
portable `path.Match` semantics, with malformed patterns matching nothing —
no substring fallback. -/
def matchResource (pattern resource : String) : Bool :=
  if pattern = "" ∨ pattern = "*" then true
  else
    match pathMatch pattern resource with
    | .error _ => false
    | .ok m => m

/-! ## Grant consumption (`pkg/approvals/store.go`, `FindAndConsumeGrant`) -/

/-- The candidate WHERE clause: tenant, uses left, unexpired, tool and action
equal or `*`, agent restriction unset or equal. -/
def grantCandidate (tenantID tool action agentID : String) (now : Int)
    (g : ApprovalGrant) : Bool :=
  g.tenantID == tenantID && decide (g.usesLeft > 0) && decide (g.expiresAt > now) &&
  (g.scopeTool == tool || g.scopeTool == "*") &&
  (g.scopeAction == action || g.scopeAction == "*") &&
  (g.scopeAgentID == "" || g.scopeAgentID == agentID)

/-- `granted_at DESC` ordering of candidates. -/
def grantGe (a b : ApprovalGrant) : Prop := b.grantedAt ≤ a.grantedAt

instance : DecidableRel grantGe := fun a b => inferInstanceAs (Decidable (b.grantedAt ≤ a.grantedAt))

instance : IsTotal ApprovalGrant grantGe := ⟨fun a b => le_total b.grantedAt a.grantedAt⟩

instance : IsTrans ApprovalGrant grantGe :=
  ⟨fun a b c h1 h2 => le_trans (show c.grantedAt ≤ b.grantedAt from h2)
    (show b.grantedAt ≤ a.grantedAt from h1)⟩

/-- The candidate rows of `FindAndConsumeGrant`'s SELECT, in `granted_at
DESC` order. -/
def grantCandidates (grants : List ApprovalGrant)
    (tenantID tool action agentID : String) (now : Int) : List ApprovalGrant :=
  List.insertionSort grantGe (grants.filter (grantCandidate tenantID tool action agentID now))

/-- `FindAndConsumeGrant`: walk the candidates in order, testing each
resource pattern in process; on the first match decrement that grant's
`uses_left` (both in the returned grant and the table) and stop; otherwise
change nothing. -/
def FindAndConsumeGrant (grants : List ApprovalGrant)
    (tenantID agentID tool action resource : String) (now : Int) :
    Option ApprovalGrant × List ApprovalGrant :=
  match (grantCandidates grants tenantID tool action agentID now).find?
      (fun g => matchResource g.scopeResourcePattern resource) with
  | none => (none, grants)
  | some g =>
    (some { g with usesLeft := g.usesLeft - 1 },
     grants.map fun x => if x.id == g.id then { x with usesLeft := x.usesLeft - 1 } else x)

def witGrantA : ApprovalGrant :=
  { id := "gA", requestID := "r1", tenantID := "tenant1", approver := "alice@example.com",
    scopeTool := "slack", scopeAction := "msg.post", scopeResourcePattern := "*",
    scopeTenantID := "tenant1", scopeAgentID := "", maxUses := 1, usesLeft := 1,
    expiresAt := 2000, grantedAt := 100 }

def witGrantB : ApprovalGrant :=
  { witGrantA with id := "gB", maxUses := 5, usesLeft := 5, grantedAt := 50 }

def witEmptyResReq : ApprovalRequest :=
  { witExpiredReq with resource := "", expiresAt := 1000000000 }

/-! ## Parent↔execution link (`pkg/evidence/store.go`, `tool_executions`) -/

structure ToolExecutionRow where
  parentEventID : String
  executionEventID : String
  consumedGrantID : String
deriving DecidableEq, Repr

/-- `LinkExecutionToParent`: insert into the append-only link table; the
primary key on `parent_event_id` turns a second insert into a unique
violation (code 23505), reported as `linked = false` with the table
unchanged. -/
def LinkExecutionToParent (table : List ToolExecutionRow) (parent exec grantID : String) :
    Bool × List ToolExecutionRow :=
  if table.any (fun r => r.parentEventID == parent) then (false, table)
  else (true, table ++ [⟨parent, exec, grantID⟩])

/-- `GetExecutionByParentEvent`, reduced to the identity of the canonical
replay response: the linked execution event id, if a link exists. -/
def GetExecutionByParentEvent (table : List ToolExecutionRow) (parent : String) :
    Option String :=
  (table.find? (fun r => r.parentEventID == parent)).map (fun r => r.executionEventID)

/-- A serialization of concurrent `/execute` callers' link attempts: each
element is one atomic `LinkExecutionToParent` call `(parent, exec, grant)`. -/
def applyLinks (table : List ToolExecutionRow) :
    List (String × String × String) → List ToolExecutionRow
  | [] => table
  | (p, e, g) :: ops => applyLinks (LinkExecutionToParent table p e g).2 ops

def witLinkRow : ToolExecutionRow :=
  { parentEventID := "parent-1", executionEventID := "exec-1", consumedGrantID := "gA" }

/-! ## Theorems

The claims of the specification, settled over the embedding above. -/

theorem chainValid_nil (start : String) : chainValid start [] := by
  intro k hk; simp at hk

theorem chainValid_cons {start : String} {ev : ChainEvent} {rest : List ChainEvent} :
    chainValid start (ev :: rest) ↔ eventOk start ev ∧ chainValid ev.hash rest := by
  constructor
  · intro h
    refine ⟨h 0 (by simp), ?_⟩
    intro k hk
    have := h (k + 1) (by simpa using Nat.succ_lt_succ hk)
    simpa [prevAt] using by
      cases k with
      | zero => simpa [prevAt] using this
      | succ j => simpa [prevAt] using this
  · rintro ⟨h0, hrest⟩ k hk
    cases k with
    | zero => simpa [prevAt] using h0
    | succ j =>
      have hj : j < rest.length := by simpa using Nat.lt_of_succ_lt_succ hk
      have := hrest j hj
      cases j with
      | zero => simpa [prevAt] using this
      | succ i => simpa [prevAt] using this

theorem verifyChainFrom_ok_iff (events : List ChainEvent) :
    ∀ start, VerifyChainFrom start events = none ↔ chainValid start events := by
  induction events with
  | nil => intro start; simp [VerifyChainFrom, chainValid_nil]
  | cons ev rest ih =>
    intro start
    by_cases hok : eventOk start ev
    · have := ih ev.hash
      cases hrec : VerifyChainFrom ev.hash rest with
      | none =>
        simp only [VerifyChainFrom, if_pos hok, hrec]
        simp [chainValid_cons, hok, (this).mp hrec]
      | some i =>
        simp only [VerifyChainFrom, if_pos hok, hrec]
        have : ¬ chainValid ev.hash rest := fun hv => by
          have := (ih ev.hash).mpr hv
          rw [this] at hrec; exact Option.noConfusion hrec
        simp [chainValid_cons, this]
    · simp [VerifyChainFrom, if_neg hok, chainValid_cons, hok]

theorem verifyChainFrom_error_iff (events : List ChainEvent) :
    ∀ start i, VerifyChainFrom start events = some i ↔
      (i < events.length ∧ ¬ eventOk (prevAt start events i) (events.getD i default) ∧
        ∀ j, j < i → eventOk (prevAt start events j) (events.getD j default)) := by
  induction events with
  | nil => intro start i; simp [VerifyChainFrom]
  | cons ev rest ih =>
    intro start i
    by_cases hok : eventOk start ev
    · cases hrec : VerifyChainFrom ev.hash rest with
      | none =>
        simp only [VerifyChainFrom, if_pos hok, hrec]
        constructor
        · intro h; exact Option.noConfusion h
        · rintro ⟨hlen, hbad, _hmin⟩
          exfalso
          have hvalid := (verifyChainFrom_ok_iff rest ev.hash).mp hrec
          cases i with
          | zero => exact hbad (by simpa [prevAt] using hok)
          | succ j =>
            have hj : j < rest.length := by simpa using Nat.lt_of_succ_lt_succ hlen
            have := hvalid j hj
            apply hbad
            cases j with
            | zero => simpa [prevAt] using this
            | succ m => simpa [prevAt] using this
      | some k =>
        simp only [VerifyChainFrom, if_pos hok, hrec]
        have hk := (ih ev.hash k).mp hrec
        constructor
        · intro h
          have hi : i = k + 1 := by
            have := Option.some.inj h; omega
          subst hi
          refine ⟨by simpa using Nat.succ_lt_succ hk.1, ?_, ?_⟩
          · cases k with
            | zero => simpa [prevAt] using hk.2.1
            | succ m => simpa [prevAt] using hk.2.1
          · intro j hj
            cases j with
            | zero => simpa [prevAt] using hok
            | succ m =>
              have hm : m < k := Nat.lt_of_succ_lt_succ hj
              have := hk.2.2 m hm
              cases m with
              | zero => simpa [prevAt] using this
              | succ n => simpa [prevAt] using this
        · rintro ⟨hlen, hbad, hmin⟩
          cases i with
          | zero =>
            exfalso; exact hbad (by simpa [prevAt] using hok)
          | succ j =>
            have hj : j < rest.length := by simpa using Nat.lt_of_succ_lt_succ hlen
            have hjbad : ¬ eventOk (prevAt ev.hash rest j) (rest.getD j default) := by
              intro hc; apply hbad
              cases j with
              | zero => simpa [prevAt] using hc
              | succ m => simpa [prevAt] using hc
            have hjmin : ∀ m, m < j → eventOk (prevAt ev.hash rest m) (rest.getD m default) := by
              intro m hm
              have := hmin (m + 1) (Nat.succ_lt_succ hm)
              cases m with
              | zero => simpa [prevAt] using this
              | succ n => simpa [prevAt] using this
            have : VerifyChainFrom ev.hash rest = some j :=
              (ih ev.hash j).mpr ⟨hj, hjbad, hjmin⟩
            rw [this] at hrec
            cases Option.some.inj hrec
            rfl
    · simp only [VerifyChainFrom, if_neg hok]
      constructor
      · intro h
        have hi : i = 0 := (Option.some.inj h).symm
        subst hi
        exact ⟨by simp, by simpa [prevAt] using hok, fun j hj => absurd hj (by omega)⟩
      · rintro ⟨_, hbad, hmin⟩
        cases i with
        | zero => rfl
        | succ j =>
          exfalso
          exact (by simpa [prevAt] using hmin 0 (Nat.succ_pos j) : eventOk start ev) |> hok

theorem getD_set_self {α : Type} (l : List α) (k : Nat) (a d : α) (h : k < l.length) :
    (l.set k a).getD k d = a := by
  induction l generalizing k with
  | nil => simp at h
  | cons x xs ih =>
    cases k with
    | zero => rfl
    | succ j => simpa using ih j (by simpa using Nat.lt_of_succ_lt_succ h)

theorem getD_set_ne {α : Type} (l : List α) (k j : Nat) (a d : α) (h : j ≠ k) :
    (l.set k a).getD j d = l.getD j d := by
  induction l generalizing k j with
  | nil => simp
  | cons x xs ih =>
    cases k with
    | zero =>
      cases j with
      | zero => exact absurd rfl h
      | succ m => simp [List.set]
    | succ kk =>
      cases j with
      | zero => simp [List.set]
      | succ m => simpa [List.set] using ih kk m (fun hc => h (by omega))

theorem prevAt_set_eq (start : String) (events : List ChainEvent) (k j : Nat)
    (ev' : ChainEvent) (hj : j ≤ k) :
    prevAt start (events.set k ev') j = prevAt start events j := by
  cases j with
  | zero => rfl
  | succ m =>
    simp only [prevAt]
    rw [getD_set_ne events k m ev' default (by omega)]

/-- Mutating any single event so that its per-index check breaks makes
verification fail exactly at that index. -/
theorem verifyChainFrom_mutation (start : String) (events : List ChainEvent)
    (k : Nat) (ev' : ChainEvent)
    (hvalid : chainValid start events) (hk : k < events.length)
    (hbad : ¬ eventOk (prevAt start events k) ev') :
    VerifyChainFrom start (events.set k ev') = some k := by
  apply (verifyChainFrom_error_iff (events.set k ev') start k).mpr
  refine ⟨by simpa [List.length_set] using hk, ?_, ?_⟩
  · rw [getD_set_self events k ev' default hk,
      prevAt_set_eq start events k k ev' (Nat.le_refl k)]
    exact hbad
  · intro j hj
    rw [getD_set_ne events k j ev' default (by omega),
      prevAt_set_eq start events k j ev' (Nat.le_of_lt hj)]
    exact hvalid j (Nat.lt_trans hj hk)

/-- Claim C1: for every sequence of chain events and every starting hash,
`VerifyChainFrom` succeeds exactly when, for each index `k` in order, the
event's `prev_hash` equals the hash of the previous event (the starting hash
at `k = 0`) and the event's `hash` equals SHA-256 over the length-prefixed
concatenation of the tag `"openclause:chain:v1"`, the previous hash, the
canonical payload, and (only when a result exists) the canonical result,
with 8-byte big-endian length prefixes; when any event is mutated so that
its check breaks (it differs in `prev_hash`, or its stored hash no longer
recomputes — as any hash, payload or result mutation produces short of a
SHA-256 collision), verification fails and the reported index is the first
index at which the chain breaks. -/
theorem verifyChainFrom_spec (start : String) (events : List ChainEvent) :
    (VerifyChainFrom start events = none ↔ chainValid start events) ∧
    (∀ i, VerifyChainFrom start events = some i ↔
      (i < events.length ∧ ¬ eventOk (prevAt start events i) (events.getD i default) ∧
        ∀ j, j < i → eventOk (prevAt start events j) (events.getD j default))) ∧
    (∀ k ev', chainValid start events → k < events.length →
      ¬ eventOk (prevAt start events k) ev' →
      VerifyChainFrom start (events.set k ev') = some k) :=
  ⟨verifyChainFrom_ok_iff events start,
   fun i => verifyChainFrom_error_iff events start i,
   fun k ev' hv hk hb => verifyChainFrom_mutation start events k ev' hv hk hb⟩

set_option maxRecDepth 100000 in
theorem verifyChainFrom_spec_witness :
    VerifyChainFrom "" [witChainEv0, witChainEv1] = none ∧
    VerifyChainFrom "" ([witChainEv0, witChainEv1].set 1 witChainMutant) = some 1 :=
  ⟨(verifyChainFrom_spec "" [witChainEv0, witChainEv1]).1.mpr (by decide),
   (verifyChainFrom_spec "" [witChainEv0, witChainEv1]).2.2 1 witChainMutant
     (by decide) (by decide) (by decide)⟩

theorem jEquiv_obj (fs gs : List (String × Jval)) :
    JEquiv (.obj fs) (.obj gs) ↔ (keyList fs).Perm (keyList gs) ∧ JFieldsCompat fs gs := by
  simp [JEquiv]

theorem jFieldsCompat_cons (k : String) (v : Jval) (fs gs : List (String × Jval)) :
    JFieldsCompat ((k, v) :: fs) gs ↔
      (∀ w, (k, w) ∈ gs → JEquiv v w) ∧ JFieldsCompat fs gs := by
  simp [JFieldsCompat]

theorem jFieldsCompat_nil (gs : List (String × Jval)) : JFieldsCompat [] gs := by
  simp [JFieldsCompat]

theorem keyList_sortKeysFields (fs : List (String × Jval)) :
    keyList (sortKeysFields fs) = keyList fs := by
  induction fs with
  | nil => rfl
  | cons p fs ih =>
    obtain ⟨k, v⟩ := p
    simp [sortKeysFields, keyList] at ih ⊢
    exact ih

theorem mem_sortKeysFields (fs : List (String × Jval)) (k : String) (w : Jval) :
    (k, w) ∈ sortKeysFields fs ↔ ∃ v, (k, v) ∈ fs ∧ w = sortKeys v := by
  induction fs with
  | nil => simp [sortKeysFields]
  | cons p fs ih =>
    obtain ⟨k0, v0⟩ := p
    simp only [sortKeysFields, List.mem_cons, ih, Prod.mk.injEq]
    constructor
    · rintro (⟨rfl, rfl⟩ | ⟨v, hv, rfl⟩)
      · exact ⟨v0, Or.inl ⟨rfl, rfl⟩, rfl⟩
      · exact ⟨v, Or.inr hv, rfl⟩
    · rintro ⟨v, (⟨rfl, rfl⟩ | hv), rfl⟩
      · exact Or.inl ⟨rfl, rfl⟩
      · exact Or.inr ⟨v, hv, rfl⟩

theorem jFieldsCompat_mem {fs gs : List (String × Jval)} {k : String} {v w : Jval}
    (hc : JFieldsCompat fs gs) (hv : (k, v) ∈ fs) (hw : (k, w) ∈ gs) : JEquiv v w := by
  induction fs with
  | nil => simp at hv
  | cons p fs ih =>
    obtain ⟨k0, v0⟩ := p
    simp only [JFieldsCompat] at hc
    rcases List.mem_cons.mp hv with h | h
    · obtain ⟨rfl, rfl⟩ := Prod.mk.injEq .. ▸ h
      exact hc.1 w hw
    · exact ih hc.2 h

theorem jFieldsWF_mem {fs : List (String × Jval)} {k : String} {v : Jval}
    (hwf : JFieldsWF fs) (hv : (k, v) ∈ fs) : JWF v := by
  induction fs with
  | nil => simp at hv
  | cons p fs ih =>
    obtain ⟨k0, v0⟩ := p
    simp only [JFieldsWF] at hwf
    rcases List.mem_cons.mp hv with h | h
    · obtain ⟨rfl, rfl⟩ := Prod.mk.injEq .. ▸ h
      exact hwf.1
    · exact ih hwf.2 h

theorem sorted_fieldLt_of_le {l : List (String × Jval)} (hs : List.Sorted fieldLe l)
    (hnd : (l.map Prod.fst).Nodup) : List.Sorted fieldLt l := by
  have hne : List.Pairwise (fun p q : String × Jval => p.1 ≠ q.1) l :=
    (List.pairwise_map).mp hnd
  exact (hs.and hne).imp fun h => lt_of_le_of_ne h.1 h.2

theorem sortKeys_eq_of_equiv :
    ∀ n a b, sizeOf a ≤ n → JWF a → JEquiv a b → sortKeys a = sortKeys b := by
  intro n
  induction n with
  | zero =>
    intro a b hsz _ _
    exact absurd hsz (by cases a <;> simp)
  | succ n ih =>
    intro a b hsz hwf heq
    cases a with
    | null => cases b <;> simp_all [JEquiv]
    | bool x => cases b <;> simp_all [JEquiv]
    | num t => cases b <;> simp_all [JEquiv]
    | str s => cases b <;> simp_all [JEquiv]
    | arr xs =>
      cases b with
      | arr ys =>
        simp only [JEquiv] at heq
        simp only [JWF] at hwf
        simp only [sortKeys, Jval.arr.injEq]
        induction xs generalizing ys with
        | nil =>
          cases ys with
          | nil => rfl
          | cons y ys => simp [JListEquiv] at heq
        | cons x xs ihx =>
          cases ys with
          | nil => simp [JListEquiv] at heq
          | cons y ys =>
            simp only [JListEquiv] at heq
            simp only [JListWF] at hwf
            have hx : sortKeys x = sortKeys y := by
              refine ih x y ?_ hwf.1 heq.1
              have := Jval.arr.sizeOf_spec (x :: xs)
              have := List.cons.sizeOf_spec x xs
              omega
            have hxs : sortKeysList xs = sortKeysList ys := by
              refine ihx ?_ hwf.2 ys heq.2
              have := Jval.arr.sizeOf_spec (x :: xs)
              have := Jval.arr.sizeOf_spec xs
              have := List.cons.sizeOf_spec x xs
              omega
            simp [sortKeysList, hx, hxs]
      | null => simp [JEquiv] at heq
      | bool y => simp [JEquiv] at heq
      | num t => simp [JEquiv] at heq
      | str s => simp [JEquiv] at heq
      | obj gs => simp [JEquiv] at heq
    | obj fs =>
      cases b with
      | obj gs =>
        simp only [JEquiv] at heq
        obtain ⟨hperm, hcompat⟩ := heq
        simp only [JWF] at hwf
        obtain ⟨hnd, hfwf⟩ := hwf
        simp only [sortKeys, Jval.obj.injEq]
        have hszv : ∀ {k : String} {v : Jval}, (k, v) ∈ fs → sizeOf v ≤ n := by
          intro k v hv
          have h1 := List.sizeOf_lt_of_mem hv
          have h2 := Prod.mk.sizeOf_spec k v
          have h3 := Jval.obj.sizeOf_spec fs
          omega
        have hndg : (keyList gs).Nodup := hperm.nodup_iff.mp hnd
        have hmem : ∀ p : String × Jval, p ∈ sortKeysFields fs ↔ p ∈ sortKeysFields gs := by
          rintro ⟨k, w⟩
          rw [mem_sortKeysFields, mem_sortKeysFields]
          constructor
          · rintro ⟨v, hvfs, rfl⟩
            have hk : k ∈ keyList gs := hperm.subset (by
              simpa [keyList] using List.mem_map_of_mem Prod.fst hvfs)
            obtain ⟨⟨k2, w0⟩, hw0, hk2⟩ := List.mem_map.mp hk
            cases hk2
            have hvw : JEquiv v w0 := jFieldsCompat_mem hcompat hvfs hw0
            exact ⟨w0, hw0, ih v w0 (hszv hvfs) (jFieldsWF_mem hfwf hvfs) hvw⟩
          · rintro ⟨w0, hw0, rfl⟩
            have hk : k ∈ keyList fs := hperm.symm.subset (by
              simpa [keyList] using List.mem_map_of_mem Prod.fst hw0)
            obtain ⟨⟨k2, v⟩, hvfs, hk2⟩ := List.mem_map.mp hk
            cases hk2
            have hvw : JEquiv v w0 := jFieldsCompat_mem hcompat hvfs hw0
            exact ⟨v, hvfs,
              (ih v w0 (hszv hvfs) (jFieldsWF_mem hfwf hvfs) hvw).symm⟩
        have hndf2 : (sortKeysFields fs).Nodup := by
          refine List.Nodup.of_map Prod.fst ?_
          show ((sortKeysFields fs).map Prod.fst).Nodup
          have : (sortKeysFields fs).map Prod.fst = keyList fs := keyList_sortKeysFields fs
          rw [this]; exact hnd
        have hndg2 : (sortKeysFields gs).Nodup := by
          refine List.Nodup.of_map Prod.fst ?_
          show ((sortKeysFields gs).map Prod.fst).Nodup
          have : (sortKeysFields gs).map Prod.fst = keyList gs := keyList_sortKeysFields gs
          rw [this]; exact hndg
        have hpermf : List.Perm (sortKeysFields fs) (sortKeysFields gs) :=
          (List.perm_ext_iff_of_nodup hndf2 hndg2).mpr hmem
        have hsorted1 := List.sorted_insertionSort fieldLe (sortKeysFields fs)
        have hsorted2 := List.sorted_insertionSort fieldLe (sortKeysFields gs)
        have hkey1 : ((List.insertionSort fieldLe (sortKeysFields fs)).map Prod.fst).Nodup := by
          have hp := (List.perm_insertionSort fieldLe (sortKeysFields fs)).map Prod.fst
          refine hp.nodup_iff.mpr ?_
          have : (sortKeysFields fs).map Prod.fst = keyList fs := keyList_sortKeysFields fs
          rw [this]; exact hnd
        have hkey2 : ((List.insertionSort fieldLe (sortKeysFields gs)).map Prod.fst).Nodup := by
          have hp := (List.perm_insertionSort fieldLe (sortKeysFields gs)).map Prod.fst
          refine hp.nodup_iff.mpr ?_
          have : (sortKeysFields gs).map Prod.fst = keyList gs := keyList_sortKeysFields gs
          rw [this]; exact hndg
        exact List.eq_of_perm_of_sorted
          ((List.perm_insertionSort fieldLe (sortKeysFields fs)).trans
            (hpermf.trans (List.perm_insertionSort fieldLe (sortKeysFields gs)).symm))
          (sorted_fieldLt_of_le hsorted1 hkey1)
          (sorted_fieldLt_of_le hsorted2 hkey2)
      | null => simp [JEquiv] at heq
      | bool y => simp [JEquiv] at heq
      | num t => simp [JEquiv] at heq
      | str s => simp [JEquiv] at heq
      | arr ys => simp [JEquiv] at heq

/-- Claim C7: `CanonicalJSON` is deterministic on logical JSON values: any
two well-formed inputs denoting the same logical object (same key/value
mappings, any key insertion order, arbitrarily nested) produce byte-identical
output, because mapping keys are sorted recursively at every level; numeric
tokens are carried verbatim (integer identity preserved, no floating-point
round-trip); hence the chain hashes of equal logical payloads are equal. -/
theorem canonicalJSON_deterministic (a b : Jval) (hwf : JWF a) (heq : JEquiv a b) :
    CanonicalJSON a = CanonicalJSON b ∧
    (∀ t : String, CanonicalJSON (.num t) = t) ∧
    ∀ prev r, ChainHash prev (strBytes (CanonicalJSON a)) r =
      ChainHash prev (strBytes (CanonicalJSON b)) r := by
  have h := sortKeys_eq_of_equiv (sizeOf a) a b (Nat.le_refl _) hwf heq
  exact ⟨by simp [CanonicalJSON, h], fun t => by simp [CanonicalJSON, sortKeys, serialize],
    fun prev r => by simp [CanonicalJSON, h]⟩

theorem witJEquiv : JEquiv witJa witJb := by
  unfold witJa witJb
  rw [jEquiv_obj]
  refine ⟨List.Perm.swap _ _ _, ?_⟩
  rw [jFieldsCompat_cons]
  refine ⟨?_, ?_⟩
  · intro w hw
    simp only [List.mem_cons, List.not_mem_nil, or_false, Prod.mk.injEq] at hw
    rcases hw with ⟨hk, _⟩ | ⟨_, rfl⟩
    · exact absurd hk (by decide)
    · simp [JEquiv]
  · rw [jFieldsCompat_cons]
    refine ⟨?_, jFieldsCompat_nil _⟩
    intro w hw
    simp only [List.mem_cons, List.not_mem_nil, or_false, Prod.mk.injEq] at hw
    rcases hw with ⟨_, rfl⟩ | ⟨hk, _⟩
    · rw [jEquiv_obj]
      refine ⟨List.Perm.swap _ _ _, ?_⟩
      rw [jFieldsCompat_cons]
      refine ⟨?_, ?_⟩
      · intro u hu
        simp only [List.mem_cons, List.not_mem_nil, or_false, Prod.mk.injEq] at hu
        rcases hu with ⟨hk, _⟩ | ⟨_, rfl⟩
        · exact absurd hk (by decide)
        · simp [JEquiv]
      · rw [jFieldsCompat_cons]
        refine ⟨?_, jFieldsCompat_nil _⟩
        intro u hu
        simp only [List.mem_cons, List.not_mem_nil, or_false, Prod.mk.injEq] at hu
        rcases hu with ⟨_, rfl⟩ | ⟨hk, _⟩
        · simp [JEquiv]
        · exact absurd hk (by decide)
    · exact absurd hk (by decide)

theorem witJWF : JWF witJa := by
  unfold witJa
  simp [JWF, JFieldsWF, keyList]

theorem canonicalJSON_deterministic_witness :
    CanonicalJSON witJa = CanonicalJSON witJb :=
  (canonicalJSON_deterministic witJa witJb witJWF witJEquiv).1

/-- Claim C3 (code-bug exhibit): with no allowlist configured for a tenant the
authorizer permits every non-empty identity — the code default-allows where
the specification (and the repository's own fix tracker, finding 15) require
fail-closed deny; membership is only enforced once an allowlist exists. -/
theorem allowEmail_default_allows :
    AllowEmail (NewApproverAuthorizer "" "") "tenant1" "mallory@example.com" = true ∧
    AllowSlack (NewApproverAuthorizer "" "") "tenant1" "U999MALLORY" = true ∧
    AllowEmail (NewApproverAuthorizer "tenant1:alice@example.com" "") "tenant1"
      "mallory@example.com" = false ∧
    AllowEmail (NewApproverAuthorizer "tenant1:alice@example.com" "") "tenant1"
      "alice@example.com" = true := by
  refine ⟨?_, ?_, ?_, ?_⟩ <;> decide

/-- Claim C9 counterexample: at attempt count 9 (< 10) the scheduled delay is
256 s = 2^8 s, not the claimed min(2^9 s, 5 min) = 300 s. -/
theorem backoff_min_formula_counterexample :
    dispatchOnFailure 9 = .retryAfterSec 256 ∧ (256 : Nat) ≠ min (2 ^ 9) 300 := by
  decide

/-- Claim C9 (amended): for every failed delivery with attempt count a < 10
the dispatcher schedules the retry at now plus exactly 2^min(a,8) seconds
(1 s for a ≤ 0) — the exponent, not the delay, is clamped, so delays are
nondecreasing in the attempt number and never exceed 256 s < 5 minutes —
and for attempt count ≥ 10 it marks the row terminally failed. -/
theorem dispatch_backoff_spec (a : Int) :
    (0 ≤ a → a < 10 → dispatchOnFailure a = .retryAfterSec (2 ^ min a.toNat 8)) ∧
    (10 ≤ a → dispatchOnFailure a = .failed) ∧
    (∀ b : Int, a ≤ b → backoffForAttempt a ≤ backoffForAttempt b) ∧
    backoffForAttempt a ≤ 300 := by
  have hpow : ∀ n : Nat, (2 : Nat) ^ min n 8 ≤ 256 := by
    intro n
    calc (2 : Nat) ^ min n 8 ≤ 2 ^ 8 :=
          Nat.pow_le_pow_right (by omega) (Nat.min_le_right n 8)
      _ = 256 := by norm_num
  have hback : ∀ c : Int, backoffForAttempt c = if c ≤ 0 then 1 else 2 ^ min c.toNat 8 := by
    intro c
    unfold backoffForAttempt
    split
    · rfl
    · simp only [Nat.shiftLeft_eq, one_mul]
      have := hpow c.toNat
      have : ¬ (2 ^ min c.toNat 8 > maxDispatchBackoffSec) := by
        unfold maxDispatchBackoffSec; omega
      simp [this]
  refine ⟨?_, ?_, ?_, ?_⟩
  · intro h0 h10
    unfold dispatchOnFailure
    rw [if_neg (by unfold maxNotificationAttempts; omega), hback]
    rcases Int.lt_or_le 0 a with h | h
    · rw [if_neg (by omega)]
    · have ha : a = 0 := le_antisymm h h0
      subst ha
      simp
  · intro h
    unfold dispatchOnFailure
    rw [if_pos (by unfold maxNotificationAttempts; omega)]
  · intro b hab
    rw [hback, hback]
    split
    · split
      · exact Nat.le_refl 1
      · exact Nat.one_le_two_pow
    · have hb : ¬ b ≤ 0 := by omega
      rw [if_neg hb]
      refine Nat.pow_le_pow_right (by omega) ?_
      have : a.toNat ≤ b.toNat := by omega
      omega
  · rw [hback]
    split
    · omega
    · have := hpow a.toNat
      omega

theorem dispatch_backoff_spec_witness :
    dispatchOnFailure 3 = .retryAfterSec 8 ∧ dispatchOnFailure 12 = .failed ∧
    backoffForAttempt 2 ≤ backoffForAttempt 7 :=
  ⟨by
    have h := (dispatch_backoff_spec 3).1 (by decide) (by decide)
    simpa using h,
   (dispatch_backoff_spec 12).2.1 (by decide),
   (dispatch_backoff_spec 2).2.2.1 7 (by decide)⟩

set_option maxHeartbeats 1000000 in
theorem validateNormalized_ok_names (now : Nat) (rn : ToolCallRequest) (r2 : ToolCallRequest)
    (hok : validateNormalized now rn = .ok r2) :
    validName rn.tool = true ∧ validName rn.action = true ∧
    r2.tool = rn.tool ∧ r2.action = rn.action := by
  unfold validateNormalized at hok
  by_cases h1 : rn.tenantID = ""
  · rw [if_pos h1] at hok; exact absurd hok (by simp)
  rw [if_neg h1] at hok
  by_cases h2 : rn.agentID = ""
  · rw [if_pos h2] at hok; exact absurd hok (by simp)
  rw [if_neg h2] at hok
  by_cases h3 : rn.tool = ""
  · rw [if_pos h3] at hok; exact absurd hok (by simp)
  rw [if_neg h3] at hok
  by_cases h4 : rn.action = ""
  · rw [if_pos h4] at hok; exact absurd hok (by simp)
  rw [if_neg h4] at hok
  by_cases h5 : validName rn.tool = false
  · rw [if_pos h5] at hok; exact absurd hok (by simp)
  rw [if_neg h5] at hok
  by_cases h6 : validName rn.action = false
  · rw [if_pos h6] at hok; exact absurd hok (by simp)
  rw [if_neg h6] at hok
  by_cases h7 : rn.idempotencyKey = ""
  · rw [if_pos h7] at hok; exact absurd hok (by simp)
  rw [if_neg h7] at hok
  by_cases h8 : rn.idempotencyKey.utf8ByteSize > MaxIdempotencyKeyBytes
  · rw [if_pos h8] at hok; exact absurd hok (by simp)
  rw [if_neg h8] at hok
  by_cases h9 : rn.riskScore < 0 ∨ rn.riskScore > MaxRiskScore
  · rw [if_pos h9] at hok; exact absurd hok (by simp)
  rw [if_neg h9] at hok
  by_cases h10 : rn.params.length > MaxParamsBytes
  · rw [if_pos h10] at hok; exact absurd hok (by simp)
  rw [if_neg h10] at hok
  by_cases h11 : rn.resource.utf8ByteSize > MaxResourceBytes
  · rw [if_pos h11] at hok; exact absurd hok (by simp)
  rw [if_neg h11] at hok
  by_cases h12 : rn.labels.length > MaxLabelsCount
  · rw [if_pos h12] at hok; exact absurd hok (by simp)
  rw [if_neg h12] at hok
  by_cases h13 : rn.schemaVersion = ""
  · rw [if_pos h13] at hok
    have hr2 := (Except.ok.injEq .. ▸ hok :)
    refine ⟨by simpa using h5, by simpa using h6, ?_, ?_⟩ <;> rw [← hr2]
  rw [if_neg h13] at hok
  by_cases h14 : rn.schemaVersion ≠ CurrentSchemaVer
  · rw [if_pos h14] at hok; exact absurd hok (by simp)
  rw [if_neg h14] at hok
  have hr2 := (Except.ok.injEq .. ▸ hok :)
  refine ⟨by simpa using h5, by simpa using h6, ?_, ?_⟩ <;> rw [← hr2]

theorem validateNormalized_names (now : Nat) (rn : ToolCallRequest) :
    (∀ r2, validateNormalized now rn = .ok r2 →
      validName r2.tool = true ∧ validName r2.action = true ∧
      r2.tool = rn.tool ∧ r2.action = rn.action) ∧
    (validName rn.tool = false ∨ validName rn.action = false →
      ∃ f, validateNormalized now rn = .error f) := by
  constructor
  · intro r2 hok
    have h := validateNormalized_ok_names now rn r2 hok
    exact ⟨h.2.2.1 ▸ h.1, h.2.2.2 ▸ h.2.1, h.2.2.1, h.2.2.2⟩
  · intro hbad
    cases hres : validateNormalized now rn with
    | error f => exact ⟨f, rfl⟩
    | ok r2 =>
      exfalso
      have h := validateNormalized_ok_names now rn r2 hres
      rcases hbad with hb | hb
      · rw [h.1] at hb; exact Bool.noConfusion hb
      · rw [h.2.1] at hb; exact Bool.noConfusion hb

/-- Claim C8: validation accepts a request only when its normalized
(lowercased, trimmed) tool and action each match
`^[a-z0-9][a-z0-9._-]\x7b0,63\x7d$`: every accepted request carries normalized
names satisfying the pattern, and every request whose normalized tool or
action fails the pattern is rejected with a validation error (a 422 before
persistence). -/
theorem normalizeAndValidate_name_pattern (now : Nat) (r : ToolCallRequest) :
    (∀ r2, NormalizeAndValidate now r = .ok r2 →
      validName r2.tool = true ∧ validName r2.action = true ∧
      r2.tool = normName r.tool ∧ r2.action = normName r.action) ∧
    (validName (normName r.tool) = false ∨ validName (normName r.action) = false →
      ∃ f, NormalizeAndValidate now r = .error f) := by
  have h := validateNormalized_names now (normalizeReq r)
  constructor
  · intro r2 hok
    have := h.1 r2 hok
    simpa [normalizeReq] using this
  · intro hbad
    exact h.2 (by simpa [normalizeReq] using hbad)

set_option maxRecDepth 10000 in
theorem normalizeAndValidate_name_pattern_witness :
    (validName "slack" = true ∧ validName "msg.post" = true) ∧
    (∃ f, NormalizeAndValidate 0 witBadRequest = .error f) := by
  constructor
  · have h := (normalizeAndValidate_name_pattern 0 witGoodRequest).1
      { witGoodRequest with tool := "slack", action := "msg.post" } (by decide)
    exact ⟨h.1, h.2.1⟩
  · exact (normalizeAndValidate_name_pattern 0 witBadRequest).2 (Or.inl (by decide))

/-- Claim C5 counterexample: on a hit the prior response is not returned
unchanged — the stored policy reason is replaced by the fixed string
"idempotent replay" and the linked execution result is dropped. -/
theorem checkIdempotency_counterexample :
    CheckIdempotency [witPriorEvent] "tenant1" "demo-001" ≠ some witPriorResponse ∧
    CheckIdempotency [witPriorEvent] "tenant1" "demo-001" =
      some { eventID := "e-1", decision := "allow",
             reason := "idempotent replay", result := none } := by
  decide

/-- Claim C5 (amended): for every submit whose `(tenant_id, idempotency_key)`
matches an already-stored event, the gateway returns a replay response built
from the stored event — the same `event_id` and the same `decision`, so no
second ToolEvent is created and the connector is not invoked — but with the
fixed reason "idempotent replay" and no attached execution result rather
than the prior reason and linked result; on a miss `CheckIdempotency`
returns nothing. -/
theorem checkIdempotency_spec (events : List ToolEventRow) (t k : String) :
    (CheckIdempotency events t k = none ↔
      ∀ e ∈ events, ¬(e.tenantID = t ∧ e.idempotencyKey = k)) ∧
    (∀ e, events.find? (fun e2 => e2.tenantID == t && e2.idempotencyKey == k) = some e →
      CheckIdempotency events t k =
        some { eventID := e.eventID, decision := e.decision,
               reason := "idempotent replay", result := none }) := by
  constructor
  · unfold CheckIdempotency
    cases hf : events.find? (fun e => e.tenantID == t && e.idempotencyKey == k) with
    | none =>
      simp only [true_iff]
      intro e he hcon
      have := List.find?_eq_none.mp hf e he
      simp [hcon.1, hcon.2] at this
    | some e =>
      simp only [reduceCtorEq, false_iff, not_forall]
      refine ⟨e, List.mem_of_find?_eq_some hf, ?_⟩
      have := List.find?_some hf
      simp at this
      simpa using this
  · intro e hf
    unfold CheckIdempotency
    rw [hf]

theorem checkIdempotency_spec_witness :
    CheckIdempotency [] "tenant1" "k" = none ∧
    CheckIdempotency [witPriorEvent] "tenant1" "demo-001" =
      some { eventID := "e-1", decision := "allow",
             reason := "idempotent replay", result := none } :=
  ⟨(checkIdempotency_spec [] "tenant1" "k").1.mpr (by simp),
   (checkIdempotency_spec [witPriorEvent] "tenant1" "demo-001").2 witPriorEvent (by decide)⟩

/-- Claim C4 (code-bug exhibit): with now = 200 past `expires_at` = 100, the
status-only WHERE clause still matches the pending row, so approval of the
expired request succeeds: the row flips to approved and a grant is created —
where the claim (spec §4.4, scenario S4) requires a not-found-or-not-pending
error with the row unchanged and no grant. -/
theorem grantRequest_expired_approved :
    witExpiredReq.status = "pending" ∧ witExpiredReq.expiresAt < 200 ∧
    GrantRequest [witExpiredReq] [] "r1" witGrantInput 200 "g1" =
      .ok ([{ witExpiredReq with status := "approved" }],
        [{ id := "g1", requestID := "r1", tenantID := "tenant1",
           approver := "alice@example.com", scopeTool := "slack",
           scopeAction := "msg.post", scopeResourcePattern := "channel-1",
           scopeTenantID := "tenant1", scopeAgentID := "agent-1",
           maxUses := 1, usesLeft := 1, expiresAt := 3800, grantedAt := 200 }],
        { id := "g1", requestID := "r1", tenantID := "tenant1",
          approver := "alice@example.com", scopeTool := "slack",
          scopeAction := "msg.post", scopeResourcePattern := "channel-1",
          scopeTenantID := "tenant1", scopeAgentID := "agent-1",
          maxUses := 1, usesLeft := 1, expiresAt := 3800, grantedAt := 200 }) := by
  refine ⟨rfl, by decide, ?_⟩
  decide

theorem find?_first_iff {α : Type} (p : α → Bool) (l : List α) (b : α) :
    l.find? p = some b ↔
      p b = true ∧ ∃ i, ∃ h : i < l.length, l.get ⟨i, h⟩ = b ∧
        ∀ j, ∀ hj : j < i, p (l.get ⟨j, Nat.lt_trans hj h⟩) = false := by
  rw [List.find?_eq_some_iff_getElem]
  constructor
  · rintro ⟨hp, i, h, hget, hmin⟩
    exact ⟨hp, i, h, by simpa using hget, fun j hj => by simpa using hmin j hj⟩
  · rintro ⟨hp, i, h, hget, hmin⟩
    exact ⟨hp, i, h, by simpa using hget, fun j hj => by simpa using hmin j hj⟩

theorem mem_grantCandidates (grants : List ApprovalGrant)
    (tenantID tool action agentID : String) (now : Int) (g : ApprovalGrant) :
    g ∈ grantCandidates grants tenantID tool action agentID now ↔
      g ∈ grants ∧ grantCandidate tenantID tool action agentID now g = true := by
  unfold grantCandidates
  rw [(List.perm_insertionSort grantGe _).mem_iff, List.mem_filter]

theorem grantCandidate_usesLeft {tenantID tool action agentID : String} {now : Int}
    {g : ApprovalGrant} (h : grantCandidate tenantID tool action agentID now g = true) :
    0 < g.usesLeft := by
  simp only [grantCandidate, Bool.and_eq_true, decide_eq_true_eq] at h
  exact h.1.1.1.1.2

theorem findAndConsumeGrant_some_iff (grants : List ApprovalGrant)
    (tenantID agentID tool action resource : String) (now : Int)
    (g2 : ApprovalGrant) (grants2 : List ApprovalGrant) :
    FindAndConsumeGrant grants tenantID agentID tool action resource now = (some g2, grants2) ↔
      ∃ g, (grantCandidates grants tenantID tool action agentID now).find?
            (fun x => matchResource x.scopeResourcePattern resource) = some g ∧
        g2 = { g with usesLeft := g.usesLeft - 1 } ∧
        grants2 = grants.map fun x =>
          if x.id == g.id then { x with usesLeft := x.usesLeft - 1 } else x := by
  unfold FindAndConsumeGrant
  cases hf : (grantCandidates grants tenantID tool action agentID now).find?
      (fun x => matchResource x.scopeResourcePattern resource) with
  | none => simp
  | some g =>
    simp only [Prod.mk.injEq, Option.some.injEq]
    constructor
    · rintro ⟨h1, h2⟩
      exact ⟨g, rfl, h1.symm, h2.symm⟩
    · rintro ⟨g0, hg0, h1, h2⟩
      cases hg0
      exact ⟨h1.symm, h2.symm⟩

theorem findAndConsumeGrant_none (grants : List ApprovalGrant)
    (tenantID agentID tool action resource : String) (now : Int) :
    ((FindAndConsumeGrant grants tenantID agentID tool action resource now).1 = none ↔
      ∀ g ∈ grantCandidates grants tenantID tool action agentID now,
        matchResource g.scopeResourcePattern resource = false) ∧
    ((FindAndConsumeGrant grants tenantID agentID tool action resource now).1 = none →
      (FindAndConsumeGrant grants tenantID agentID tool action resource now).2 = grants) := by
  unfold FindAndConsumeGrant
  cases hf : (grantCandidates grants tenantID tool action agentID now).find?
      (fun x => matchResource x.scopeResourcePattern resource) with
  | none =>
    refine ⟨?_, fun _ => rfl⟩
    simp only [true_iff]
    intro g hg
    have := List.find?_eq_none.mp hf g hg
    simpa using this
  | some g =>
    refine ⟨?_, fun h => absurd h (by simp)⟩
    simp only [reduceCtorEq, false_iff, not_forall]
    refine ⟨g, List.mem_of_find?_eq_some hf, ?_⟩
    have := List.find?_some hf
    simp [this]

theorem findAndConsumeGrant_single_use (grants : List ApprovalGrant)
    (tenantID agentID tool action resource : String) (now : Int)
    (hnod : (grants.map fun x => x.id).Nodup)
    (g2 : ApprovalGrant) (grants2 : List ApprovalGrant)
    (hcall : FindAndConsumeGrant grants tenantID agentID tool action resource now = (some g2, grants2))
    (hle : g2.usesLeft ≤ 0)
    (t2 a2 to2 ac2 r2 : String) (n2 : Int) (g3 : ApprovalGrant) (grants3 : List ApprovalGrant)
    (hcall2 : FindAndConsumeGrant grants2 t2 a2 to2 ac2 r2 n2 = (some g3, grants3)) :
    g3.id ≠ g2.id := by
  obtain ⟨g, hf, hg2, hgr2⟩ := (findAndConsumeGrant_some_iff ..).mp hcall
  obtain ⟨g9, hf9, hg3, _⟩ := (findAndConsumeGrant_some_iff ..).mp hcall2
  have hgmem : g ∈ grants ∧ grantCandidate tenantID tool action agentID now g = true :=
    (mem_grantCandidates ..).mp (List.mem_of_find?_eq_some hf)
  have hg9mem : g9 ∈ grants2 ∧ grantCandidate t2 to2 ac2 a2 n2 g9 = true :=
    (mem_grantCandidates ..).mp (List.mem_of_find?_eq_some hf9)
  have hg9pos : 0 < g9.usesLeft := grantCandidate_usesLeft hg9mem.2
  intro hid
  have hid9 : g9.id = g.id := by
    have h3 : g3.id = g9.id := by rw [hg3]
    have h2id : g2.id = g.id := by rw [hg2]
    rw [h3, h2id] at hid
    exact hid
  obtain ⟨x, hxmem, hxeq⟩ := List.mem_map.mp (hgr2 ▸ hg9mem.1)
  by_cases hbeq : (x.id == g.id) = true
  · rw [if_pos hbeq] at hxeq
    have hxg : x = g := by
      refine List.inj_on_of_nodup_map hnod hxmem hgmem.1 ?_
      simpa using hbeq
    subst hxg
    have : g9.usesLeft = x.usesLeft - 1 := by rw [← hxeq]
    have h2u : g2.usesLeft = x.usesLeft - 1 := by rw [hg2]
    omega
  · rw [if_neg hbeq] at hxeq
    apply hbeq
    subst hxeq
    simpa using hid9

/-- Claim C6: `FindAndConsumeGrant` considers exactly the grants satisfying
the candidate clause — matching tenant, `uses_left > 0`, `expires_at > now`,
`scope_tool` equal or `*`, `scope_action` equal or `*`, `scope_agent` unset
or equal — in `granted_at`-descending order; it tests each candidate's
resource pattern with portable glob semantics and no substring fallback
(pattern `admin` does not match `not-admin-panel`); on the first matching
candidate it decrements exactly that grant's `uses_left` by exactly 1 and
returns the grant carrying the decremented value; when no candidate's
pattern matches it returns nothing and decrements no grant; consequently a
consumed grant whose `uses_left` reached 0 (`max_uses = 1`) is never
returned to a second caller. -/
theorem findAndConsumeGrant_spec (grants : List ApprovalGrant)
    (tenantID agentID tool action resource : String) (now : Int) :
    List.Perm (grantCandidates grants tenantID tool action agentID now)
      (grants.filter (grantCandidate tenantID tool action agentID now)) ∧
    List.Sorted grantGe (grantCandidates grants tenantID tool action agentID now) ∧
    matchResource "admin" "not-admin-panel" = false ∧
    matchResource "channel-*" "channel-general" = true ∧
    ((FindAndConsumeGrant grants tenantID agentID tool action resource now).1 = none ↔
      ∀ g ∈ grantCandidates grants tenantID tool action agentID now,
        matchResource g.scopeResourcePattern resource = false) ∧
    ((FindAndConsumeGrant grants tenantID agentID tool action resource now).1 = none →
      (FindAndConsumeGrant grants tenantID agentID tool action resource now).2 = grants) ∧
    (∀ g2 grants2,
      FindAndConsumeGrant grants tenantID agentID tool action resource now = (some g2, grants2) ↔
        ∃ g, matchResource g.scopeResourcePattern resource = true ∧
          (∃ i, ∃ h : i < (grantCandidates grants tenantID tool action agentID now).length,
            (grantCandidates grants tenantID tool action agentID now).get ⟨i, h⟩ = g ∧
            ∀ j, ∀ hj : j < i,
              matchResource ((grantCandidates grants tenantID tool action agentID now).get
                ⟨j, Nat.lt_trans hj h⟩).scopeResourcePattern resource = false) ∧
          g2 = { g with usesLeft := g.usesLeft - 1 } ∧
          grants2 = grants.map fun x =>
            if x.id == g.id then { x with usesLeft := x.usesLeft - 1 } else x) ∧
    ((grants.map fun x => x.id).Nodup →
      ∀ g2 grants2,
        FindAndConsumeGrant grants tenantID agentID tool action resource now = (some g2, grants2) →
        g2.usesLeft ≤ 0 →
        ∀ t2 a2 to2 ac2 r2 n2 g3 grants3,
          FindAndConsumeGrant grants2 t2 a2 to2 ac2 r2 n2 = (some g3, grants3) →
          g3.id ≠ g2.id) := by
  refine ⟨List.perm_insertionSort grantGe _, List.sorted_insertionSort grantGe _,
    by decide, by decide,
    (findAndConsumeGrant_none ..).1, (findAndConsumeGrant_none ..).2, ?_, ?_⟩
  · intro g2 grants2
    rw [findAndConsumeGrant_some_iff]
    constructor
    · rintro ⟨g, hf, h1, h2⟩
      obtain ⟨hp, i, h, hget, hmin⟩ := (find?_first_iff ..).mp hf
      exact ⟨g, hp, ⟨i, h, hget, hmin⟩, h1, h2⟩
    · rintro ⟨g, hp, ⟨i, h, hget, hmin⟩, h1, h2⟩
      exact ⟨g, (find?_first_iff ..).mpr ⟨hp, i, h, hget, hmin⟩, h1, h2⟩
  · intro hnod g2 grants2 hcall hle t2 a2 to2 ac2 r2 n2 g3 grants3 hcall2
    exact findAndConsumeGrant_single_use grants tenantID agentID tool action resource now
      hnod g2 grants2 hcall hle t2 a2 to2 ac2 r2 n2 g3 grants3 hcall2

theorem findAndConsumeGrant_spec_witness :
    ({ witGrantB with usesLeft := 4 } : ApprovalGrant).id ≠
      ({ witGrantA with usesLeft := 0 } : ApprovalGrant).id :=
  (findAndConsumeGrant_spec [witGrantA, witGrantB] "tenant1" "agent-1" "slack" "msg.post"
      "channel-1" 1000).2.2.2.2.2.2.2
    (by decide)
    { witGrantA with usesLeft := 0 }
    [{ witGrantA with usesLeft := 0 }, witGrantB]
    (by decide)
    (by decide)
    "tenant1" "agent-1" "slack" "msg.post" "channel-1" 1000
    { witGrantB with usesLeft := 4 }
    [{ witGrantA with usesLeft := 0 }, { witGrantB with usesLeft := 4 }]
    (by decide)

/-- Claim C10: `matchResource` returns true for every resource when the
pattern is the empty string or `*`; and since `GrantRequest` copies the
approval request's resource into the grant's pattern only when the approver
supplies none, a grant created for a request whose resource was empty
carries the empty pattern and therefore authorizes execution against any
resource within its tool/action/agent scope. -/
theorem matchResource_empty_pattern (res : String) (reqs : List ApprovalRequest)
    (grants : List ApprovalGrant) (rid : String) (input : GrantInput) (now : Int)
    (gid : String) (r : ApprovalRequest)
    (st : List ApprovalRequest × List ApprovalGrant × ApprovalGrant) :
    matchResource "" res = true ∧ matchResource "*" res = true ∧
    (GrantRequest reqs grants rid input now gid = .ok st →
      input.resourcePattern = "" →
      reqs.find? (fun q => q.id == rid && q.status == "pending") = some r →
      r.resource = "" →
      st.2.2.scopeResourcePattern = "" ∧
      ∀ res2, matchResource st.2.2.scopeResourcePattern res2 = true) := by
  refine ⟨by simp [matchResource], by simp [matchResource], ?_⟩
  intro hok hinp hfind hres
  unfold GrantRequest at hok
  by_cases happr : input.approver = ""
  · rw [if_pos happr] at hok
    exact absurd hok (by simp)
  rw [if_neg happr, hfind] at hok
  simp only [Except.ok.injEq] at hok
  have hpat : st.2.2.scopeResourcePattern = "" := by
    rw [← hok]
    simp [hinp, hres]
  exact ⟨hpat, fun res2 => by simp [hpat, matchResource]⟩

theorem matchResource_empty_pattern_witness :
    ({ id := "g2", requestID := "r1", tenantID := "tenant1",
       approver := "alice@example.com", scopeTool := "slack",
       scopeAction := "msg.post", scopeResourcePattern := "",
       scopeTenantID := "tenant1", scopeAgentID := "agent-1",
       maxUses := 1, usesLeft := 1, expiresAt := 3900, grantedAt := 300 } :
         ApprovalGrant).scopeResourcePattern = "" ∧
    matchResource "" "arn:aws:s3:::prod-bucket/secret-object" = true := by
  have h := (matchResource_empty_pattern "arn:aws:s3:::prod-bucket/secret-object"
      [witEmptyResReq] [] "r1" witGrantInput 300 "g2" witEmptyResReq
      ([{ witEmptyResReq with status := "approved" }],
       [{ id := "g2", requestID := "r1", tenantID := "tenant1",
          approver := "alice@example.com", scopeTool := "slack",
          scopeAction := "msg.post", scopeResourcePattern := "",
          scopeTenantID := "tenant1", scopeAgentID := "agent-1",
          maxUses := 1, usesLeft := 1, expiresAt := 3900, grantedAt := 300 }],
       { id := "g2", requestID := "r1", tenantID := "tenant1",
         approver := "alice@example.com", scopeTool := "slack",
         scopeAction := "msg.post", scopeResourcePattern := "",
         scopeTenantID := "tenant1", scopeAgentID := "agent-1",
         maxUses := 1, usesLeft := 1, expiresAt := 3900, grantedAt := 300 })).2.2
    (by decide) (by decide) (by decide) (by decide)
  exact ⟨h.1, h.2 _⟩

theorem find?_append_left {α : Type} (p : α → Bool) (l1 l2 : List α) (x : α)
    (h : l1.find? p = some x) : (l1 ++ l2).find? p = some x := by
  induction l1 with
  | nil => simp at h
  | cons a t ih =>
    by_cases hp : p a
    · rw [List.find?_cons_of_pos _ hp] at h
      rw [List.cons_append, List.find?_cons_of_pos _ hp]
      exact h
    · rw [List.find?_cons_of_neg _ hp] at h
      rw [List.cons_append, List.find?_cons_of_neg _ hp]
      exact ih h

theorem find?_append_none {α : Type} (p : α → Bool) (l1 l2 : List α)
    (h : l1.find? p = none) : (l1 ++ l2).find? p = l2.find? p := by
  induction l1 with
  | nil => simp
  | cons a t ih =>
    by_cases hp : p a
    · rw [List.find?_cons_of_pos _ hp] at h
      exact Option.noConfusion h
    · rw [List.find?_cons_of_neg _ hp] at h
      rw [List.cons_append, List.find?_cons_of_neg _ hp]
      exact ih h

theorem linkExec_preserves_lookup (table : List ToolExecutionRow) (p e g parent e0 : String)
    (h : GetExecutionByParentEvent table parent = some e0) :
    GetExecutionByParentEvent (LinkExecutionToParent table p e g).2 parent = some e0 := by
  unfold LinkExecutionToParent
  by_cases hany : table.any (fun r => r.parentEventID == p) = true
  · rw [if_pos hany]
    exact h
  · rw [if_neg hany]
    unfold GetExecutionByParentEvent at h ⊢
    cases hf : table.find? (fun r => r.parentEventID == parent) with
    | none => rw [hf] at h; exact Option.noConfusion h
    | some r =>
      rw [hf] at h
      rw [find?_append_left _ _ _ _ hf]
      exact h

theorem applyLinks_preserves_lookup (ops : List (String × String × String)) :
    ∀ table parent e0, GetExecutionByParentEvent table parent = some e0 →
      GetExecutionByParentEvent (applyLinks table ops) parent = some e0 := by
  induction ops with
  | nil => intro table parent e0 h; exact h
  | cons op ops ih =>
    intro table parent e0 h
    obtain ⟨p, e, g⟩ := op
    exact ih _ parent e0 (linkExec_preserves_lookup table p e g parent e0 h)

theorem linkExec_preserves_nodup (table : List ToolExecutionRow) (p e g : String)
    (h : (table.map (fun r => r.parentEventID)).Nodup) :
    (((LinkExecutionToParent table p e g).2.map (fun r => r.parentEventID)).Nodup) := by
  unfold LinkExecutionToParent
  by_cases hany : table.any (fun r => r.parentEventID == p) = true
  · rw [if_pos hany]
    exact h
  · rw [if_neg hany]
    simp only [List.map_append, List.map_cons, List.map_nil]
    rw [List.nodup_append]
    refine ⟨h, List.nodup_singleton p, ?_⟩
    intro a ha hb
    simp only [List.mem_singleton] at hb
    subst hb
    obtain ⟨r, hr, hrp⟩ := List.mem_map.mp ha
    exact hany (List.any_eq_true.mpr ⟨r, hr, by simp [hrp]⟩)

theorem applyLinks_nodup (ops : List (String × String × String)) :
    ∀ table, (table.map (fun r => r.parentEventID)).Nodup →
      ((applyLinks table ops).map (fun r => r.parentEventID)).Nodup := by
  induction ops with
  | nil => intro table h; exact h
  | cons op ops ih =>
    intro table h
    obtain ⟨p, e, g⟩ := op
    exact ih _ (linkExec_preserves_nodup table p e g h)

theorem length_filter_parent_le_one (l : List ToolExecutionRow)
    (h : (l.map (fun r => r.parentEventID)).Nodup) (p : String) :
    (l.filter (fun r => r.parentEventID == p)).length ≤ 1 := by
  induction l with
  | nil => simp
  | cons r t ih =>
    simp only [List.map_cons, List.nodup_cons] at h
    by_cases hp : (r.parentEventID == p) = true
    · simp only [List.filter_cons, hp, if_true]
      have : t.filter (fun x => x.parentEventID == p) = [] := by
        rw [List.filter_eq_nil_iff]
        intro x hx hxp
        apply h.1
        have hpe : x.parentEventID = p := by simpa using hxp
        have hre : r.parentEventID = p := by simpa using hp
        rw [hre, ← hpe]
        exact List.mem_map_of_mem _ hx
      simp [this]
    · simp only [List.filter_cons, hp, if_false]
      exact ih h.2

/-- Claim C2: the primary key on `parent_event_id` makes `/execute`
exactly-once. `LinkExecutionToParent` returns `linked = false` instead of
inserting when a row for the parent already exists; across any serialization
of concurrent link attempts starting from a table with unique parents, at
most one link row ever exists per parent; a link, once present, is never
changed, so every caller that replays an existing link observes the final
execution id; the winner's own execution id is exactly the stored one; and a
caller that loses the race finds a stored response to return. -/
theorem linkExecution_at_most_once (table : List ToolExecutionRow)
    (ops : List (String × String × String)) (parent exec grantID e0 : String) :
    ((LinkExecutionToParent table parent exec grantID).1 = false ↔
      ∃ r ∈ table, r.parentEventID = parent) ∧
    ((LinkExecutionToParent table parent exec grantID).1 = false →
      (LinkExecutionToParent table parent exec grantID).2 = table) ∧
    ((table.map (fun r => r.parentEventID)).Nodup →
      ((applyLinks table ops).map (fun r => r.parentEventID)).Nodup ∧
      ∀ p, ((applyLinks table ops).filter (fun r => r.parentEventID == p)).length ≤ 1) ∧
    (GetExecutionByParentEvent table parent = some e0 →
      GetExecutionByParentEvent (applyLinks table ops) parent = some e0) ∧
    ((LinkExecutionToParent table parent exec grantID).1 = true →
      GetExecutionByParentEvent (LinkExecutionToParent table parent exec grantID).2 parent =
        some exec) ∧
    ((LinkExecutionToParent table parent exec grantID).1 = false →
      ∃ e1, GetExecutionByParentEvent table parent = some e1) := by
  refine ⟨?_, ?_, ?_, ?_, ?_, ?_⟩
  · unfold LinkExecutionToParent
    by_cases hany : table.any (fun r => r.parentEventID == parent) = true
    · rw [if_pos hany]
      simp only [true_iff]
      obtain ⟨r, hr, hrp⟩ := List.any_eq_true.mp hany
      exact ⟨r, hr, by simpa using hrp⟩
    · rw [if_neg hany]
      simp only [reduceCtorEq, false_iff, not_exists]
      rintro r ⟨hr, hrp⟩
      exact hany (List.any_eq_true.mpr ⟨r, hr, by simp [hrp]⟩)
  · unfold LinkExecutionToParent
    by_cases hany : table.any (fun r => r.parentEventID == parent) = true
    · rw [if_pos hany]
      intro _; rfl
    · rw [if_neg hany]
      intro h; exact absurd h (by simp)
  · intro hnod
    refine ⟨applyLinks_nodup ops table hnod, fun p => ?_⟩
    exact length_filter_parent_le_one _ (applyLinks_nodup ops table hnod) p
  · exact applyLinks_preserves_lookup ops table parent e0
  · unfold LinkExecutionToParent
    by_cases hany : table.any (fun r => r.parentEventID == parent) = true
    · rw [if_pos hany]
      intro h; exact absurd h (by simp)
    · rw [if_neg hany]
      intro _
      unfold GetExecutionByParentEvent
      have hf : table.find? (fun r => r.parentEventID == parent) = none := by
        rw [List.find?_eq_none]
        intro r hr hrp
        exact absurd (List.any_eq_true.mpr ⟨r, hr, hrp⟩) hany
      rw [find?_append_none _ _ _ hf]
      simp [List.find?]
  · intro h
    have hany : table.any (fun r => r.parentEventID == parent) = true := by
      unfold LinkExecutionToParent at h
      by_cases hany : table.any (fun r => r.parentEventID == parent) = true
      · exact hany
      · rw [if_neg hany] at h
        exact absurd h (by simp)
    obtain ⟨r, hr, hrp⟩ := List.any_eq_true.mp hany
    have : ∃ r2, table.find? (fun x => x.parentEventID == parent) = some r2 := by
      cases hfind : table.find? (fun x => x.parentEventID == parent) with
      | none => exact absurd hrp (by simpa using List.find?_eq_none.mp hfind r hr)
      | some r2 => exact ⟨r2, rfl⟩
    obtain ⟨r2, hr2⟩ := this
    exact ⟨r2.executionEventID, by unfold GetExecutionByParentEvent; rw [hr2]; rfl⟩

theorem linkExecution_at_most_once_witness :
    GetExecutionByParentEvent
      (applyLinks [witLinkRow]
        [("parent-1", "exec-2", "gB"), ("parent-2", "exec-3", "gC")]) "parent-1" =
      some "exec-1" ∧
    ((applyLinks [witLinkRow]
      [("parent-1", "exec-2", "gB"), ("parent-2", "exec-3", "gC")]).filter
        (fun r => r.parentEventID == "parent-1")).length ≤ 1 :=
  ⟨(linkExecution_at_most_once [witLinkRow]
      [("parent-1", "exec-2", "gB"), ("parent-2", "exec-3", "gC")]
      "parent-1" "exec-9" "g9" "exec-1").2.2.2.1 (by decide),
   ((linkExecution_at_most_once [witLinkRow]
      [("parent-1", "exec-2", "gB"), ("parent-2", "exec-3", "gC")]
      "parent-1" "exec-9" "g9" "exec-1").2.2.1 (by decide)).2 "parent-1"⟩

end OpenClause

